import Mathlib

/-!
# Verification of the sparse tensor-component engine (`comp.py`)

This file is a shallow embedding of the `Components` family of classes from
`src/sage/geometry/manifolds/comp.py` — the sparse symmetric/antisymmetric
tensor-component engine — together with theorems settling the specification
claims about it.

Modelling conventions:

* The coefficient ring is an arbitrary type `R` with `[CommRing R]` and
  `[DecidableEq R]` (the source treats coefficients as opaque ring elements
  supporting `+, -, *, /, == 0`; `self.ring(value)` coercion is the identity,
  since we state claims about values which already live in the ring).
  Operations involving `/` (scalar division, symmetrization) are additionally
  stated over a `Field`.
* Python `dict` becomes an association list `List (List ℤ × R)` with
  insert-or-replace, erase and lookup operations mirroring dict semantics
  (insertion order preserved, replacement keeps the position, keys unique by
  construction).
* Index tuples are `List ℤ` (Python tuples of ints); index *positions* inside
  a symmetry group are `List ℕ`.
* The Python class of an object is recorded in a `cls` tag, which is what
  Python's `isinstance(…, CompWithSym)` dynamic dispatch inspects.
* A `frame` is compared only by identity/equality in the source
  (`other.frame != self.frame`), so it is modelled as an opaque handle `ℕ`;
  `dim` (`len(frame)`) is carried alongside.
* Python exceptions become `Except CompError` values, with one error kind per
  exception class used by the source (`TypeError`, `IndexError`, `ValueError`,
  `NotImplementedError`, `ZeroDivisionError`, `AttributeError`).
-/

/-- The kinds of exception raised by the source code.  The specification's
error vocabulary maps onto these as follows: `IndexOutOfRange` → `indexError`
(or `typeError` for a wrong tuple length), `IncompatibleOperands` →
`typeError`, `AntisymmetryConflict` → `valueError`, `Frozen` →
`notImplementedError`, `InvalidSymmetrySpec` → `indexError` at construction. -/
inductive CompError where
  | typeError
  | indexError
  | valueError
  | notImplementedError
  | zeroDivisionError
  | attributeError
  deriving Repr, DecidableEq

/-- The Python class of a component store: `Components` (plain),
`CompWithSym`, `CompFullySym` or `CompFullyAntiSym`.  `isinstance(x,
CompWithSym)` is `x.cls ≠ plain`. -/
inductive CompClass where
  | plain
  | withSym
  | fullySym
  | fullyAntiSym
  deriving Repr, DecidableEq

namespace PyDict

variable {R : Type}

/-- `d[k]` lookup on a Python dict modelled as an association list. -/
def lookup (d : List (List ℤ × R)) (k : List ℤ) : Option R :=
  match d with
  | [] => none
  | (k', v) :: rest => if k' = k then some v else lookup rest k

/-- `k in d` membership test. -/
def hasKey (d : List (List ℤ × R)) (k : List ℤ) : Bool :=
  match d with
  | [] => false
  | (k', _) :: rest => if k' = k then true else hasKey rest k

/-- `d[k] = v`: replace in place if the key is present, else append
(Python dicts preserve insertion order). -/
def insert (d : List (List ℤ × R)) (k : List ℤ) (v : R) : List (List ℤ × R) :=
  match d with
  | [] => [(k, v)]
  | (k', v') :: rest =>
      if k' = k then (k, v) :: rest else (k', v') :: insert rest k v

/-- `del d[k]` (a no-op when the key is absent; the source always guards the
delete with `if ind in self._comp`, so the combined effect is exactly this). -/
def erase (d : List (List ℤ × R)) (k : List ℤ) : List (List ℤ × R) :=
  match d with
  | [] => []
  | (k', v') :: rest => if k' = k then rest else (k', v') :: erase rest k

/-- Uniqueness of dictionary keys (true of every real Python dict). -/
def distinctKeys (d : List (List ℤ × R)) : Prop := (d.map Prod.fst).Nodup

end PyDict

/-- Embedding of a `Components` object (any class of the family).  Fields map
one-to-one onto the attributes set by `Components.__init__` and
`CompWithSym.__init__`: `ring` and `output_formatter` are kept abstract (`R`
resp. the formatter-free access path), `frame` is an opaque handle compared
only by equality, `dim = len(frame)`, `nid`, `sindex`, `sym`, `antisym`, and
`comp` is the backing dictionary `self._comp`.  Plain `Components` objects
have `sym = antisym = []` and `cls = .plain`. -/
structure Components (R : Type) where
  cls : CompClass
  frame : ℕ
  dim : ℕ
  nid : ℕ
  sindex : ℤ
  sym : List (List ℕ)
  antisym : List (List ℕ)
  comp : List (List ℤ × R)
  deriving Repr, DecidableEq

namespace Components

variable {R : Type} [CommRing R] [DecidableEq R]

/-- `Components._check_indices`: checks the tuple length equals `nid`
(`TypeError` otherwise) and each component lies in
`[sindex, sindex + dim - 1]` (`IndexError` otherwise). -/
def checkIndices (c : Components R) (ind : List ℤ) : Except CompError (List ℤ) :=
  if ind.length ≠ c.nid then .error .typeError
  else if ind.all (fun i => c.sindex ≤ i ∧ i ≤ c.dim - 1 + c.sindex) then .ok ind
  else .error .indexError

/-- `Components.__getitem__` on an explicit index tuple (the formatter-free
path, `self._comp[ind]` if stored else `self.ring.zero_element()`). -/
def getPlain (c : Components R) (ind : List ℤ) : Except CompError R := do
  let i ← c.checkIndices ind
  pure ((PyDict.lookup c.comp i).getD 0)

/-- `Components.__setitem__` on an explicit index tuple: a zero value deletes
the key (zero values are never stored), a nonzero value is stored as
`self.ring(value)`. -/
def setPlain (c : Components R) (ind : List ℤ) (v : R) :
    Except CompError (Components R) := do
  let i ← c.checkIndices ind
  if v = 0 then pure { c with comp := PyDict.erase c.comp i }
  else pure { c with comp := PyDict.insert c.comp i v }

/-- `Components.is_zero`: true when the dictionary is empty, and otherwise
(defensively) when every stored value equals the ring zero. -/
def isZero (c : Components R) : Bool :=
  c.comp.all (fun kv => kv.2 = 0)

/-- `Components.copy` / `__pos__`: builds a structurally identical store of
the same class with the same spec and the same stored values (value `.copy()`
forwarding is the identity on ring elements). -/
def copy (c : Components R) : Components R := c

/-- `Components.__eq__` against a number (`isinstance(other, (int, Integer))`
branch): `c == 0` is `c.is_zero()`; comparing against a nonzero number raises
`TypeError("Cannot compare a set of components to a number.")`. -/
def eqNum (c : Components R) (n : ℤ) : Except CompError Bool :=
  if n = 0 then .ok c.isZero
  else .error .typeError

/-- `Components.__ne__` against a number: `not self.__eq__(other)`, with the
`TypeError` of `__eq__` propagating. -/
def neNum (c : Components R) (n : ℤ) : Except CompError Bool := do
  let b ← c.eqNum n
  pure (!b)

/-- `Components.__neg__`: a new store of the same class with every stored
value negated (`result._comp[ind] = -val` over `self._comp.items()`). -/
def neg (c : Components R) : Components R :=
  { c with comp := c.comp.map (fun kv => (kv.1, -kv.2)) }

/-- `Components.__rmul__` (multiplication by a scalar on the left):
`self._new_instance()` (an empty store of the same class and spec) if the
scalar is zero, else every stored value multiplied by the scalar. -/
def rmulScalar (k : R) (c : Components R) : Components R :=
  if k = 0 then { c with comp := [] }
  else { c with comp := c.comp.map (fun kv => (kv.1, k * kv.2)) }

end Components

/-- Python's `sorted` on a list of integers, as a stable insertion sort
(stability is irrelevant on integers, where equal elements are identical). -/
def insertSorted (a : ℤ) : List ℤ → List ℤ
  | [] => [a]
  | b :: t => if a ≤ b then a :: b :: t else b :: insertSorted a t

/-- `sorted(l)` for a list of integers. -/
def sortAsc (l : List ℤ) : List ℤ := l.foldr insertSorted []

/-- Number of inversions of a permutation word (pairs appearing in decreasing
order). -/
def inversions : List ℕ → ℕ
  | [] => 0
  | a :: t => t.countP (fun b => b < a) + inversions t

/-- `Permutation(perm).signature()`: the parity `(-1)^inversions` of a
permutation word.  The source builds the word 1-based
(`indsym.index(i) + 1`); the uniform shift does not change the parity, so we
work with the 0-based word. -/
def signatureZ (l : List ℕ) : ℤ := (-1) ^ inversions l

/-- The permutation word linking the sorted values to the original ones:
`[indsym.index(i) for i in indsym_ordered]`. -/
def permWord (indsym indsymOrdered : List ℤ) : List ℕ :=
  indsymOrdered.map (fun i => indsym.indexOf i)

/-- `for k, pos in enumerate(isym): ind[pos] = vals[k]` — write the values
`vals` back into `ind` at the positions listed in `g`. -/
def writeBack (ind : List ℤ) (g : List ℕ) (vals : List ℤ) : List ℤ :=
  (g.zip vals).foldl (fun acc pv => acc.set pv.1 pv.2) ind

/-- One symmetric group's pass of `CompWithSym._ordered_indices`: gather the
index values at the group's positions, sort them ascending, write them back
(order-preserving substitution, sign unaffected). -/
def symSortGroup (ind : List ℤ) (g : List ℕ) : List ℤ :=
  let vals := g.map (fun p => ind.getD p 0)
  writeBack ind g (sortAsc vals)

/-- The antisymmetric-group loop of `CompWithSym._ordered_indices`: for each
antisymmetric group in turn, if two of the group's index values coincide the
whole result is `(0, None)` (the source returns immediately); otherwise the
group's values are sorted back into place and the running sign is multiplied
by the sorting permutation's signature (the source skips the multiplication
when the values were already sorted, in which case the signature is `1`). -/
def antisymLoop : List ℤ → List (List ℕ) → ℤ → ℤ × Option (List ℤ)
  | ind, [], sign => (sign, some ind)
  | ind, g :: rest, sign =>
      let vals := g.map (fun p => ind.getD p 0)
      if vals.dedup.length ≠ vals.length then (0, none)
      else
        let sorted := sortAsc vals
        let ind' := writeBack ind g sorted
        let sign' := if sorted ≠ vals then sign * signatureZ (permWord vals sorted)
                     else sign
        antisymLoop ind' rest sign'

namespace Components

variable {R : Type} [CommRing R] [DecidableEq R]

/-- `CompWithSym._ordered_indices`: validate the indices, sort within every
symmetric group, then process the antisymmetric groups, returning the
accumulated sign together with the canonical tuple (`(0, None)` when the
value vanishes by antisymmetry). -/
def orderedIndices (c : Components R) (ind0 : List ℤ) :
    Except CompError (ℤ × Option (List ℤ)) := do
  let ind ← c.checkIndices ind0
  let ind1 := c.sym.foldl symSortGroup ind
  pure (antisymLoop ind1 c.antisym 1)

/-- `CompWithSym.__getitem__` on an explicit index tuple (formatter-free
path): zero when the sign vanishes or the canonical tuple is not stored, else
the stored value multiplied by the sign. -/
def getSym (c : Components R) (ind0 : List ℤ) : Except CompError R := do
  let so ← c.orderedIndices ind0
  match so.2 with
  | none => pure 0
  | some ind =>
      match PyDict.lookup c.comp ind with
      | none => pure 0
      | some v => pure (if so.1 = 1 then v else -v)

/-- `CompWithSym.__setitem__` on an explicit index tuple.  When the sign is
`0` (canonical tuple `None`), a nonzero value raises
`ValueError("By antisymmetry, the component cannot have a nonzero value …")`
and a zero value is a no-op (the guarded `del self._comp[None]` can never
fire, since `None` is not a dictionary key).  Otherwise a zero value deletes
the canonical key and a nonzero value stores the signed value
`sign * self.ring(value)`. -/
def setSym (c : Components R) (ind0 : List ℤ) (v : R) :
    Except CompError (Components R) := do
  let so ← c.orderedIndices ind0
  match so.2 with
  | none =>
      if v ≠ 0 then .error .valueError
      else pure c
  | some ind =>
      if v = 0 then pure { c with comp := PyDict.erase c.comp ind }
      else
        let sv := if so.1 = 1 then v else -v
        pure { c with comp := PyDict.insert c.comp ind sv }

/-- `CompFullySym.__getitem__`: like the `CompWithSym` version but the sign is
discarded (`self._ordered_indices(indices)[1]`; for a fully symmetric store
the sign is always `+1`). -/
def getFullySym (c : Components R) (ind0 : List ℤ) : Except CompError R := do
  let so ← c.orderedIndices ind0
  match so.2 with
  | none => pure 0
  | some ind => pure ((PyDict.lookup c.comp ind).getD 0)

/-- `CompFullySym.__setitem__`: like the `CompWithSym` version but the value
is stored unsigned. -/
def setFullySym (c : Components R) (ind0 : List ℤ) (v : R) :
    Except CompError (Components R) := do
  let so ← c.orderedIndices ind0
  match so.2 with
  | none =>
      -- Unreachable on an actual `CompFullySym` object: it has no
      -- antisymmetric group, so the canonical tuple is never `None`.
      pure c
  | some ind =>
      if v = 0 then pure { c with comp := PyDict.erase c.comp ind }
      else pure { c with comp := PyDict.insert c.comp ind v }

/-- Dynamic dispatch of `self[…]` (read) on the object's Python class. -/
def getAuto (c : Components R) (ind : List ℤ) : Except CompError R :=
  match c.cls with
  | .plain => c.getPlain ind
  | .fullySym => c.getFullySym ind
  | _ => c.getSym ind

/-- Dynamic dispatch of `self[…] = v` (write) on the object's Python class. -/
def setAuto (c : Components R) (ind : List ℤ) (v : R) :
    Except CompError (Components R) :=
  match c.cls with
  | .plain => c.setPlain ind v
  | .fullySym => c.setFullySym ind v
  | _ => c.setSym ind v

end Components

/-- The sequence of tuples yielded by `Components.index_generator` for
`nid ≥ 1`: the source's odometer starts at `(si, …, si)`, increments the
rightmost position first (resetting exhausted positions to `si`), and stops
when position 0 overflows to `imax + 1` — i.e. it enumerates all `nid`-tuples
over `[si, si + dim - 1]` in lexicographic order with the leftmost index most
significant.  This is exactly the row-major product below (outer loop on the
first index).  For `dim = 0` the start tuple already equals the end marker
and nothing is yielded, matching the empty `List.range 0`. -/
def indexTuples (si : ℤ) (dim : ℕ) : ℕ → List (List ℤ)
  | 0 => [[]]
  | n + 1 =>
      ((List.range dim).map (fun (k : ℕ) => si + (k : ℤ))).flatMap
        (fun i => (indexTuples si dim n).map (fun t => i :: t))

namespace Components

variable {R : Type} [CommRing R] [DecidableEq R]

/-- `Components.index_generator`.  For `nid = 0` the source raises
`IndexError` before yielding anything: both `ind` and `ind_end` are empty
lists and the assignment `ind_end[0] = imax + 1` is out of range.  For
`nid ≥ 1` it yields the lexicographic enumeration `indexTuples`. -/
def indexGeneratorE (c : Components R) : Except CompError (List (List ℤ)) :=
  if c.nid = 0 then .error .indexError
  else .ok (indexTuples c.sindex c.dim c.nid)

/-- The `ordered` test of `CompWithSym.non_redundant_index_generator`: for
every symmetric group the index values at consecutive listed positions must
be non-decreasing, for every antisymmetric group strictly increasing. -/
def orderedTuple (c : Components R) (ind : List ℤ) : Bool :=
  (c.sym.all (fun g =>
    (g.zip g.tail).all (fun pq => ind.getD pq.1 0 ≤ ind.getD pq.2 0))) &&
  (c.antisym.all (fun g =>
    (g.zip g.tail).all (fun pq => ind.getD pq.1 0 < ind.getD pq.2 0)))

/-- `non_redundant_index_generator` (the `CompWithSym` version; the plain
`Components` version is the same with no groups to filter on, so this single
definition dispatches both).  It shares the odometer of `index_generator` —
including the `nid = 0` `IndexError` — and yields only the `ordered`
tuples. -/
def nonRedundantE (c : Components R) : Except CompError (List (List ℤ)) :=
  if c.nid = 0 then .error .indexError
  else .ok ((indexTuples c.sindex c.dim c.nid).filter c.orderedTuple)

/-- The pairwise same-kind group intersections kept by `CompWithSym.__add__`
when the two operands carry different symmetry data: for every pair of a
`self` group and an `other` group, the set intersection (as an
order-preserving filter), kept when it has at least two positions. -/
def commonGroups (xs ys : List (List ℕ)) : List (List ℕ) :=
  (xs.flatMap (fun isym => ys.map (fun osym => isym.filter (· ∈ osym)))).filter
    (fun com => 1 < com.length)

/-- `result[[ind]] += val`, the read-modify-write used by the addition
loops, dispatching on the result's class. -/
def addInto (r : Components R) (kv : List ℤ × R) :
    Except CompError (Components R) := do
  let cur ← r.getAuto kv.1
  r.setAuto kv.1 (cur + kv.2)

/-- The loop body `result[[ind]] = self[[ind]] + other[[ind]]` used by
`CompWithSym.__add__` when the operands' symmetry data differ. -/
def addStep (a b : Components R) (r : Components R) (ind : List ℤ) :
    Except CompError (Components R) := do
  let va ← a.getAuto ind
  let vb ← b.getAuto ind
  r.setAuto ind (va + vb)

/-- `CompWithSym.__add__`.
Order of events in the source: `other == 0` (i.e. `other.is_zero()`) returns
`+self` at once; frame, `nid` and `sindex` mismatches raise `TypeError`;
identical symmetry data (`set`-wise) leads to `self.copy()` updated by
`result[[ind]] += val` over `other._comp`; otherwise only the pairwise
intersections (of size ≥ 2) of a `self` group with an `other` group of the
same kind survive — `Components` plain result if none at all — and the result
is filled by `result[[ind]] = self[[ind]] + other[[ind]]` over the result's
non-redundant index generator.  Set intersection `set(isym) & set(osym)` is
realised as an order-preserving filter. -/
def addSym (a b : Components R) : Except CompError (Components R) := do
  if b.isZero then pure a.copy
  else if b.frame ≠ a.frame then .error .typeError
  else if b.nid ≠ a.nid then .error .typeError
  else if b.sindex ≠ a.sindex then .error .typeError
  else if b.cls ≠ .plain then
    if (a.sym.all (· ∈ b.sym) && b.sym.all (· ∈ a.sym)) &&
       (a.antisym.all (· ∈ b.antisym) && b.antisym.all (· ∈ a.antisym)) then
      b.comp.foldlM addInto a.copy
    else
      let commonSym := commonGroups a.sym b.sym
      let commonAntisym := commonGroups a.antisym b.antisym
      let result : Components R :=
        if commonSym ≠ [] ∨ commonAntisym ≠ [] then
          { cls := .withSym, frame := a.frame, dim := a.dim, nid := a.nid,
            sindex := a.sindex, sym := commonSym, antisym := commonAntisym,
            comp := [] }
        else
          { cls := .plain, frame := a.frame, dim := a.dim, nid := a.nid,
            sindex := a.sindex, sym := [], antisym := [], comp := [] }
      let inds ← result.nonRedundantE
      inds.foldlM (addStep a b) result
  else
    let result : Components R :=
      { cls := .plain, frame := a.frame, dim := a.dim, nid := a.nid,
        sindex := a.sindex, sym := [], antisym := [], comp := [] }
    let inds ← result.nonRedundantE
    inds.foldlM (addStep a b) result

/-- `Components.__add__` (the plain version): `other == 0` returns `+self`;
a `CompWithSym` right operand delegates to `other + self` "to deal properly
with symmetries"; otherwise, after the compatibility checks, the result is
`self.copy()` updated by `result[[ind]] += val` over `other._comp`. -/
def addPlain (a b : Components R) : Except CompError (Components R) := do
  if b.isZero then pure a.copy
  else if b.cls ≠ .plain then addSym b a
  else if b.frame ≠ a.frame then .error .typeError
  else if b.nid ≠ a.nid then .error .typeError
  else if b.sindex ≠ a.sindex then .error .typeError
  else b.comp.foldlM addInto a.copy

/-- `CompFullySym.__add__`: a fully symmetric right operand is added by the
`copy`-and-update loop; anything else falls back to `CompWithSym.__add__`. -/
def addFullySym (a b : Components R) : Except CompError (Components R) := do
  if b.isZero then pure a.copy
  else if b.cls = .fullySym then
    if b.frame ≠ a.frame then .error .typeError
    else if b.nid ≠ a.nid then .error .typeError
    else if b.sindex ≠ a.sindex then .error .typeError
    else b.comp.foldlM addInto a.copy
  else addSym a b

/-- `CompFullyAntiSym.__add__`: mirror image of `CompFullySym.__add__`. -/
def addFullyAntiSym (a b : Components R) : Except CompError (Components R) := do
  if b.isZero then pure a.copy
  else if b.cls = .fullyAntiSym then
    if b.frame ≠ a.frame then .error .typeError
    else if b.nid ≠ a.nid then .error .typeError
    else if b.sindex ≠ a.sindex then .error .typeError
    else b.comp.foldlM addInto a.copy
  else addSym a b

/-- `a + b` dispatched on the left operand's Python class. -/
def addAuto (a b : Components R) : Except CompError (Components R) :=
  match a.cls with
  | .plain => addPlain a b
  | .withSym => addSym a b
  | .fullySym => addFullySym a b
  | .fullyAntiSym => addFullyAntiSym a b

/-- `Components.__sub__` (inherited by the whole family): `other == 0`
returns `+self`, otherwise `self.__add__(-other)`. -/
def subAuto (a b : Components R) : Except CompError (Components R) :=
  if b.isZero then .ok a.copy
  else addAuto a b.neg

/-- The nested product loop shared by both `__mul__` methods:
`result._comp[ind_s + ind_o] = val_s * val_o` over all pairs of stored
entries.  On well-formed stores all keys of one dict have the same length, so
the concatenated keys are pairwise distinct and dict insertion order is the
nested iteration order. -/
def prodComp (da db : List (List ℤ × R)) : List (List ℤ × R) :=
  da.flatMap (fun sv => db.map (fun ow => (sv.1 ++ ow.1, sv.2 * ow.2)))

/-- Shift a symmetry group's positions by `n` (`tuple(s[i] + self.nid …)`). -/
def shiftGroup (n : ℕ) (g : List ℕ) : List ℕ := g.map (· + n)

/-- `Components.__mul__` where `other` is a *different* object from `self`
(so the `self is other` identity test is `False`).  A `CompWithSym` right
operand produces a `CompWithSym` result carrying the right operand's groups
shifted by `self.nid`; two distinct 1-index plain operands produce a plain
2-index result; anything else a plain result of `nid` the sum. -/
def mulPlainDistinct (a b : Components R) : Except CompError (Components R) := do
  if b.frame ≠ a.frame then .error .typeError
  else if b.sindex ≠ a.sindex then .error .typeError
  else if b.cls ≠ .plain then
    pure { cls := .withSym, frame := a.frame, dim := a.dim,
           nid := a.nid + b.nid, sindex := a.sindex,
           sym := b.sym.map (shiftGroup a.nid),
           antisym := b.antisym.map (shiftGroup a.nid),
           comp := prodComp a.comp b.comp }
  else
    pure { cls := .plain, frame := a.frame, dim := a.dim,
           nid := a.nid + b.nid, sindex := a.sindex, sym := [], antisym := [],
           comp := prodComp a.comp b.comp }

/-- `Components.__mul__` in the call `a * a` (so the `self is other` identity
test is `True` — Python object identity is not structurally expressible, so
the two call shapes are embedded separately).  When `self.nid == 1` the
result is a `CompFullySym` 2-index store ("the result is symmetric", the
v⊗v optimization); otherwise the same as the distinct-operand case. -/
def mulPlainSelf (a : Components R) : Except CompError (Components R) := do
  if a.cls ≠ .plain then
    pure { cls := .withSym, frame := a.frame, dim := a.dim,
           nid := a.nid + a.nid, sindex := a.sindex,
           sym := a.sym ++ a.sym.map (shiftGroup a.nid),
           antisym := a.antisym ++ a.antisym.map (shiftGroup a.nid),
           comp := prodComp a.comp a.comp }
  else if a.nid = 1 then
    pure { cls := .fullySym, frame := a.frame, dim := a.dim, nid := 2,
           sindex := a.sindex, sym := [[0, 1]], antisym := [],
           comp := prodComp a.comp a.comp }
  else
    pure { cls := .plain, frame := a.frame, dim := a.dim,
           nid := a.nid + a.nid, sindex := a.sindex, sym := [], antisym := [],
           comp := prodComp a.comp a.comp }

/-- `CompWithSym.__mul__` (no identity test at all in this method): the
result is always a `CompWithSym` whose groups are `self`'s groups together
with `other`'s groups shifted by `self.nid`. -/
def mulSym (a b : Components R) : Except CompError (Components R) := do
  if b.frame ≠ a.frame then .error .typeError
  else if b.sindex ≠ a.sindex then .error .typeError
  else
    let sym := a.sym ++ (if b.cls ≠ .plain then b.sym.map (shiftGroup a.nid)
                         else [])
    let antisym := a.antisym ++
      (if b.cls ≠ .plain then b.antisym.map (shiftGroup a.nid) else [])
    pure { cls := .withSym, frame := a.frame, dim := a.dim,
           nid := a.nid + b.nid, sindex := a.sindex, sym := sym,
           antisym := antisym, comp := prodComp a.comp b.comp }

/-- `a * b` for two distinct objects, dispatched on the left class. -/
def mulAutoDistinct (a b : Components R) : Except CompError (Components R) :=
  match a.cls with
  | .plain => mulPlainDistinct a b
  | _ => mulSym a b

/-- `a * a` (same object on both sides), dispatched on the class. -/
def mulAutoSelf (a : Components R) : Except CompError (Components R) :=
  match a.cls with
  | .plain => mulPlainSelf a
  | _ => mulSym a a

/-- `Components.__div__` (scalar division).  Sage ring elements raise
`ZeroDivisionError` on division by zero; the loop body `val / other` runs
once per stored entry, so an empty store "divided" by zero returns the empty
result without error. -/
def divScalar (K : Type) [Field K] [DecidableEq K] (c : Components K) (k : K) :
    Except CompError (Components K) :=
  if k = 0 ∧ c.comp ≠ [] then .error .zeroDivisionError
  else .ok { c with comp := c.comp.map (fun kv => (kv.1, kv.2 / k)) }

/-- `Components.self_contract` / `CompWithSym.self_contract`.  Both methods
validate `nid ≥ 2`, the two positions, and `pos1 ≠ pos2`, and then execute
`si = self.manifold.sindex` — but no `__init__` in the family ever sets a
`manifold` attribute, so every call that passes the validations raises
`AttributeError`.  (The `nid > 2` branch of the plain version additionally
constructs `Components(self.frame, self.nid - 2)`, dropping the `ring`
argument.)  The result would be a ring element (`nid == 2`) or a store
(`nid > 2`), hence the sum type. -/
def selfContract (c : Components R) (pos1 pos2 : ℤ) :
    Except CompError (R ⊕ Components R) :=
  if c.nid < 2 then .error .typeError
  else if pos1 < 0 ∨ pos1 > (c.nid : ℤ) - 1 then .error .indexError
  else if pos2 < 0 ∨ pos2 > (c.nid : ℤ) - 1 then .error .indexError
  else if pos1 = pos2 then .error .indexError
  else .error .attributeError

end Components

/-- `KroneckerDelta.__init__(self, frame)` executes
`CompFullySym.__init__(self, frame, 2)`.  The signature of that method is
`(self, ring, frame, nb_indices, start_index=0, output_formatter=None)`, so
the call binds `ring := frame`, `frame := 2` and leaves the mandatory
`nb_indices` unbound: every construction attempt raises `TypeError` before
any component is stored.  (The body would go on to read `self.domain` and
`self.manifold`, which are likewise never set.) -/
def kroneckerDeltaInit (R : Type) [CommRing R] [DecidableEq R] (_frame : ℕ) :
    Except CompError (Components R) :=
  .error .typeError

/-- `KroneckerDelta.__setitem__` unconditionally raises
`NotImplementedError("The components of a Kronecker delta cannot be
changed.")` — the `Frozen` error kind. -/
def kroneckerDeltaSetitem (R : Type) [CommRing R] [DecidableEq R]
    (_c : Components R) (_ind : List ℤ) (_v : R) :
    Except CompError (Components R) :=
  .error .notImplementedError

namespace Components

variable {R : Type} [CommRing R] [DecidableEq R]

/-- The symmetry-spec validity enforced by `CompWithSym.__init__`: every
group has at least two positions, every position is in `[0, nid - 1]`, and no
position appears twice across all groups (which makes the groups pairwise
disjoint and duplicate-free). -/
def specValid (c : Components R) : Prop :=
  (∀ g ∈ c.sym ++ c.antisym, 2 ≤ g.length ∧ ∀ p ∈ g, p < c.nid) ∧
  ((c.sym ++ c.antisym).flatten).Nodup

/-- The no-zero-entries invariant on the backing dictionary. -/
def noZeroEntries (c : Components R) : Prop :=
  ∀ kv ∈ c.comp, kv.2 ≠ 0

/-- Keys of the backing dictionary are valid index tuples (what any store
built through the public `set` interface satisfies). -/
def keysValid (c : Components R) : Prop :=
  ∀ kv ∈ c.comp, (kv.1 : List ℤ).length = c.nid ∧
    ∀ i ∈ kv.1, c.sindex ≤ i ∧ i ≤ (c.dim : ℤ) - 1 + c.sindex

instance (c : Components R) : Decidable c.noZeroEntries := by
  unfold noZeroEntries; infer_instance

instance (c : Components R) : Decidable c.specValid := by
  unfold specValid; infer_instance

instance (c : Components R) : Decidable c.keysValid := by
  unfold keysValid; infer_instance

/-- The shape of a symmetry-aware store's class is tied to its group lists
(as `CompFullySym.__init__` and `CompFullyAntiSym.__init__` enforce). -/
def classCoherent (c : Components R) : Prop :=
  (c.cls = .plain → c.sym = [] ∧ c.antisym = []) ∧
  (c.cls = .fullySym → c.sym = [List.range c.nid] ∧ c.antisym = []) ∧
  (c.cls = .fullyAntiSym → c.sym = [] ∧ c.antisym = [List.range c.nid])

instance (c : Components R) : Decidable c.classCoherent := by
  unfold classCoherent; infer_instance

/-- The empty fully symmetric store of the same shape ("a new instance of
`CompFullySym` is initialized to zero"). -/
def emptyFullySym (c : Components R) : Components R :=
  { cls := .fullySym, frame := c.frame, dim := c.dim, nid := c.nid,
    sindex := c.sindex, sym := [List.range c.nid], antisym := [], comp := [] }

/-- The empty fully antisymmetric store of the same shape. -/
def emptyFullyAntiSym (c : Components R) : Components R :=
  { cls := .fullyAntiSym, frame := c.frame, dim := c.dim, nid := c.nid,
    sindex := c.sindex, sym := [], antisym := [List.range c.nid], comp := [] }

end Components

/-- `ind_perm = list(ind); for k in range(n_sym): ind_perm[pos[perm_action[k]]]
= ind[pos[k]]` — apply a permutation word `pa` of the involved positions to an
index tuple (values are read from the original `ind` throughout). -/
def permuteInd (ind : List ℤ) (pos : List ℕ) (pa : List ℕ) : List ℤ :=
  (List.range pos.length).foldl
    (fun acc k => acc.set (pos.getD (pa.getD k 0) 0) (ind.getD (pos.getD k 0) 0))
    ind

/-- The antisymmetric-interference loop of `CompWithSym.symmetrize` (and,
with roles swapped, the symmetric-interference loop of `antisymmetrize`): for
each existing group, if at least two of its positions are involved in the new
(anti)symmetry the whole result is identically zero (`none`); a single shared
position is removed from the group (the group is dropped if that leaves fewer
than two positions); a disjoint group is carried over unchanged. -/
def interferenceLoop (pos : List ℕ) : List (List ℕ) → Option (List (List ℕ))
  | [] => some []
  | g :: rest =>
      match g.filter (· ∈ pos) with
      | [] => (interferenceLoop pos rest).map (g :: ·)
      | [k] =>
          let g' := g.filter (· ≠ k)
          if 1 < g'.length then (interferenceLoop pos rest).map (g' :: ·)
          else interferenceLoop pos rest
      | _ => none

/-- The "does the new symmetry extend previous ones?" accumulation of
`CompWithSym.symmetrize`: a single pass over the existing groups, absorbing
each group that meets the accumulated set (set union realised as an
order-preserving append) and carrying the others over.  Returns the merged
group and the non-absorbed groups. -/
def mergeGroups (pos : List ℕ) (groups : List (List ℕ)) :
    List ℕ × List (List ℕ) :=
  groups.foldl
    (fun acc isym =>
      if isym.any (· ∈ acc.1) then (acc.1 ++ isym.filter (· ∉ acc.1), acc.2)
      else (acc.1, acc.2 ++ [isym]))
    (pos, [])

namespace Components

variable {K : Type} [Field K] [DecidableEq K]

/-- `CompWithSym.symmetrize(pos)` (also inherited by `CompFullySym` and
`CompFullyAntiSym`).  Steps, in source order: default `pos` to all positions,
validate `2 ≤ len(pos) ≤ nid`; return a copy if an existing symmetric group
already contains all of `pos`; run the antisymmetric-interference loop,
returning an empty `CompFullySym` (the zero store) if any antisymmetric group
shares two positions with `pos`; merge `pos` with the overlapping symmetric
groups; build a `CompFullySym` when the merged group spans all positions and
a `CompWithSym` otherwise; finally set every non-redundant component of the
result to the average of `self[[ind_perm]]` over all permutations of the
involved positions. -/
def symmetrize (c : Components K) (posArg : Option (List ℕ)) :
    Except CompError (Components K) := do
  let pos ← match posArg with
    | none => pure (List.range c.nid)
    | some p =>
        if p.length < 2 then .error .typeError
        else if p.length > c.nid then .error .typeError
        else pure p
  if c.sym.any (fun isym => pos.all (· ∈ isym)) then pure c.copy
  else
    match interferenceLoop pos c.antisym with
    | none => pure c.emptyFullySym
    | some antisymRes =>
        let m := mergeGroups pos c.sym
        let symRes := m.1 :: m.2
        let result : Components K :=
          if (symRes.map List.length).foldl max 0 = c.nid then c.emptyFullySym
          else
            { cls := .withSym, frame := c.frame, dim := c.dim, nid := c.nid,
              sindex := c.sindex, sym := symRes, antisym := antisymRes,
              comp := [] }
        let perms := (List.range pos.length).permutations
        let inds ← result.nonRedundantE
        inds.foldlM (fun r ind => do
          let s ← perms.foldlM (fun (s : K) pa => do
            let v ← c.getAuto (permuteInd ind pos pa)
            pure (s + v)) (0 : K)
          r.setAuto ind (s / (Nat.factorial pos.length : K))) result

/-- `CompWithSym.antisymmetrize(pos)`: mirror image of `symmetrize` — the
roles of the symmetric and antisymmetric group lists are exchanged, the zero
outcome is an empty `CompFullyAntiSym`, and each permutation's term enters
the sum with the permutation's sign. -/
def antisymmetrize (c : Components K) (posArg : Option (List ℕ)) :
    Except CompError (Components K) := do
  let pos ← match posArg with
    | none => pure (List.range c.nid)
    | some p =>
        if p.length < 2 then .error .typeError
        else if p.length > c.nid then .error .typeError
        else pure p
  if c.antisym.any (fun iasym => pos.all (· ∈ iasym)) then pure c.copy
  else
    match interferenceLoop pos c.sym with
    | none => pure c.emptyFullyAntiSym
    | some symRes =>
        let m := mergeGroups pos c.antisym
        let antisymRes := m.1 :: m.2
        let result : Components K :=
          if (antisymRes.map List.length).foldl max 0 = c.nid then
            c.emptyFullyAntiSym
          else
            { cls := .withSym, frame := c.frame, dim := c.dim, nid := c.nid,
              sindex := c.sindex, sym := symRes, antisym := antisymRes,
              comp := [] }
        let perms := (List.range pos.length).permutations
        let inds ← result.nonRedundantE
        inds.foldlM (fun r ind => do
          let s ← perms.foldlM (fun (s : K) pa => do
            let v ← c.getAuto (permuteInd ind pos pa)
            pure (if signatureZ pa = 1 then s + v else s - v)) (0 : K)
          r.setAuto ind (s / (Nat.factorial pos.length : K))) result

end Components

/-! ## Concrete stores used by witnesses and counterexamples -/

/-- An empty plain 1-index store over `ℤ` (frame handle 0, `dim = 3`,
`start_index = 0`). -/
def trivStore : Components ℤ :=
  { cls := .plain, frame := 0, dim := 3, nid := 1, sindex := 0, sym := [],
    antisym := [], comp := [] }

/-- The 3×3 plain store over `ℤ` holding `[[1,2,3],[4,5,6],[7,8,9]]`
(row `i`, column `j`), as produced by `c[:] = [[1,2,3],[4,5,6],[7,8,9]]`. -/
def comp123 : Components ℤ :=
  { cls := .plain, frame := 0, dim := 3, nid := 2, sindex := 0, sym := [],
    antisym := [], comp :=
      [([0, 0], 1), ([0, 1], 2), ([0, 2], 3),
       ([1, 0], 4), ([1, 1], 5), ([1, 2], 6),
       ([2, 0], 7), ([2, 1], 8), ([2, 2], 9)] }

/-- An empty 2-index store over `ℤ`, antisymmetric on `(0, 1)`
(`CompWithSym(ZZ, frame, 2, antisym=(0,1))`). -/
def antiStoreZ : Components ℤ :=
  { cls := .withSym, frame := 0, dim := 3, nid := 2, sindex := 0, sym := [],
    antisym := [[0, 1]], comp := [] }

/-- The store obtained from `antiStoreZ` by the assignment
`store[1, 0] = 5` (the signed value `-5` lands at the canonical key
`(0, 1)`). -/
def antiStoreZset : Components ℤ :=
  { cls := .withSym, frame := 0, dim := 3, nid := 2, sindex := 0, sym := [],
    antisym := [[0, 1]], comp := [([0, 1], -5)] }

/-- A 1-index store over `ℤ/6ℤ` holding the single entry `3` at key `(0,)`
(reachable as `c[0] = 3` on a fresh store). -/
def zmodStore : Components (ZMod 6) :=
  { cls := .plain, frame := 0, dim := 1, nid := 1, sindex := 0, sym := [],
    antisym := [], comp := [([0], 3)] }

/-- The empty 1-index store over `ℤ/6ℤ`. -/
def zmodEmpty : Components (ZMod 6) :=
  { cls := .plain, frame := 0, dim := 1, nid := 1, sindex := 0, sym := [],
    antisym := [], comp := [] }

/-- A 1-index `CompWithSym` store (empty symmetry lists — the constructor
accepts this) over `ℤ` with a single entry `1`. -/
def vecWithSym : Components ℤ :=
  { cls := .withSym, frame := 0, dim := 2, nid := 1, sindex := 0, sym := [],
    antisym := [], comp := [([0], 1)] }

/-- What `vecWithSym * vecWithSym` produces: `CompWithSym.__mul__` has no
`self is other` branch, so the result is a `CompWithSym` with *no* symmetry
groups. -/
def vecWithSymSq : Components ℤ :=
  { cls := .withSym, frame := 0, dim := 2, nid := 2, sindex := 0, sym := [],
    antisym := [], comp := [([0, 0], 1)] }

/-- What `trivStore * trivStore` produces: the plain `Components.__mul__`
v⊗v branch, a fully symmetric 2-index store. -/
def trivStoreSq : Components ℤ :=
  { cls := .fullySym, frame := 0, dim := 3, nid := 2, sindex := 0,
    sym := [[0, 1]], antisym := [], comp := [] }

/-- The C7 scenario store over `ℚ`: 2-index, antisymmetric on `(0, 1)`,
with `store[0, 1] = 3`. -/
def antiStoreQ : Components ℚ :=
  { cls := .withSym, frame := 0, dim := 3, nid := 2, sindex := 0, sym := [],
    antisym := [[0, 1]], comp := [([0, 1], 3)] }

/-- An empty 2-index store over `ℚ` symmetric on `(0, 1)`. -/
def symStoreQ : Components ℚ :=
  { cls := .withSym, frame := 0, dim := 3, nid := 2, sindex := 0,
    sym := [[0, 1]], antisym := [], comp := [] }

/-- A 2-index store over `ℤ` on a 2-dimensional frame, symmetric on `(0, 1)`,
with `store[0, 0] = 1`. -/
def aSymZ : Components ℤ :=
  { cls := .withSym, frame := 0, dim := 2, nid := 2, sindex := 0,
    sym := [[0, 1]], antisym := [], comp := [([0, 0], 1)] }

/-- An *empty* (zero) 2-index store of the same shape as `aSymZ` but
antisymmetric on `(0, 1)`: its symmetry spec differs from `aSymZ`, yet it
compares equal to zero. -/
def bAntiZ : Components ℤ :=
  { cls := .withSym, frame := 0, dim := 2, nid := 2, sindex := 0, sym := [],
    antisym := [[0, 1]], comp := [] }

/-- A nonzero 2-index store of the same shape as `aSymZ`, antisymmetric on
`(0, 1)`, with `store[0, 1] = 2`. -/
def bAntiZset : Components ℤ :=
  { cls := .withSym, frame := 0, dim := 2, nid := 2, sindex := 0, sym := [],
    antisym := [[0, 1]], comp := [([0, 1], 2)] }

/-- What `aSymZ + bAntiZset` produces: the symmetric group `[0, 1]` and the
antisymmetric group `[0, 1]` have no same-kind pairwise intersection, so the
result is a plain store, filled with the sums of the operands' values. -/
def addDiffW : Components ℤ :=
  { cls := .plain, frame := 0, dim := 2, nid := 2, sindex := 0, sym := [],
    antisym := [], comp := [([0, 0], 1), ([0, 1], 2), ([1, 0], -2)] }

/-- A generic empty plain store with `nid = n` over a frame of length `d`
starting at index `si`. -/
def plainN (si : ℤ) (d n : ℕ) : Components ℤ :=
  { cls := .plain, frame := 0, dim := d, nid := n, sindex := si, sym := [],
    antisym := [], comp := [] }

/-- A generic empty fully symmetric store with `nid = n` over a frame of
length `d` starting at index `si`. -/
def fullySymN (si : ℤ) (d n : ℕ) : Components ℤ :=
  { cls := .fullySym, frame := 0, dim := d, nid := n, sindex := si,
    sym := [List.range n], antisym := [], comp := [] }

/-- A generic empty fully antisymmetric store with `nid = n` over a frame of
length `d` starting at index `si`. -/
def fullyAntiN (si : ℤ) (d n : ℕ) : Components ℤ :=
  { cls := .fullyAntiSym, frame := 0, dim := d, nid := n, sindex := si,
    sym := [], antisym := [List.range n], comp := [] }

/-- A store with no indices at all (`nid = 0`), as produced by
`Components(ring, frame, 0)`. -/
def scalarStoreZ : Components ℤ :=
  { cls := .plain, frame := 0, dim := 3, nid := 0, sindex := 0, sym := [],
    antisym := [], comp := [] }

/-! ## Basic lemmas about the dictionary and canonicalization machinery -/

namespace PyDict

variable {R : Type}

theorem lookup_insert_self [DecidableEq R] (d : List (List ℤ × R)) (k : List ℤ)
    (v : R) : lookup (insert d k v) k = some v := by
  induction d with
  | nil => simp [insert, lookup]
  | cons kv rest ih =>
      by_cases h : kv.1 = k
      · simp [insert, lookup, h]
      · simp [insert, lookup, h, ih]

theorem mem_insert (d : List (List ℤ × R)) (k : List ℤ) (v : R)
    (kv : List ℤ × R) (h : kv ∈ insert d k v) : kv ∈ d ∨ kv = (k, v) := by
  induction d with
  | nil =>
      simp only [insert, List.mem_singleton] at h
      exact Or.inr h
  | cons kv' rest ih =>
      by_cases hk : kv'.1 = k
      · simp only [insert, if_pos hk, List.mem_cons] at h
        rcases h with h | h
        · exact Or.inr h
        · exact Or.inl (List.mem_cons_of_mem _ h)
      · simp only [insert, if_neg hk, List.mem_cons] at h
        rcases h with h | h
        · exact Or.inl (h ▸ List.mem_cons_self _ _)
        · rcases ih h with h' | h'
          · exact Or.inl (List.mem_cons_of_mem _ h')
          · exact Or.inr h'

theorem mem_erase (d : List (List ℤ × R)) (k : List ℤ)
    (kv : List ℤ × R) (h : kv ∈ erase d k) : kv ∈ d := by
  induction d with
  | nil => simp [erase] at h
  | cons kv' rest ih =>
      by_cases hk : kv'.1 = k
      · simp only [erase, if_pos hk] at h
        exact List.mem_cons_of_mem _ h
      · simp only [erase, if_neg hk, List.mem_cons] at h
        rcases h with h | h
        · exact h ▸ List.mem_cons_self _ _
        · exact List.mem_cons_of_mem _ (ih h)

end PyDict

theorem getD_set_ne (l : List ℤ) (q p : ℕ) (v : ℤ) (h : q ≠ p) :
    (l.set q v).getD p 0 = l.getD p 0 := by
  simp [List.getD]
  rw [List.getElem?_set_ne h]

theorem writeBack_getD_not_mem (g : List ℕ) (ind : List ℤ) (vals : List ℤ)
    (p : ℕ) (hp : p ∉ g) : (writeBack ind g vals).getD p 0 = ind.getD p 0 := by
  induction g generalizing ind vals with
  | nil => rfl
  | cons q g' ih =>
      cases vals with
      | nil => rfl
      | cons v vs =>
          have hq : q ≠ p := fun h => hp (h ▸ List.mem_cons_self _ _)
          have hpg' : p ∉ g' := fun h => hp (List.mem_cons_of_mem _ h)
          show (writeBack (ind.set q v) g' vs).getD p 0 = ind.getD p 0
          rw [ih (ind.set q v) vs hpg']
          exact getD_set_ne ind q p v hq

theorem symSortGroup_getD_not_mem (ind : List ℤ) (g : List ℕ) (p : ℕ)
    (hp : p ∉ g) : (symSortGroup ind g).getD p 0 = ind.getD p 0 :=
  writeBack_getD_not_mem g ind _ p hp

theorem symPass_getD_not_mem (syms : List (List ℕ)) (ind : List ℤ) (p : ℕ)
    (hp : ∀ g ∈ syms, p ∉ g) :
    (syms.foldl symSortGroup ind).getD p 0 = ind.getD p 0 := by
  induction syms generalizing ind with
  | nil => rfl
  | cons g rest ih =>
      show (rest.foldl symSortGroup (symSortGroup ind g)).getD p 0 = ind.getD p 0
      rw [ih _ (fun g' hg' => hp g' (List.mem_cons_of_mem _ hg'))]
      exact symSortGroup_getD_not_mem ind g p (hp g (List.mem_cons_self _ _))

theorem not_nodup_of_dup_map (g : List ℕ) (f : ℕ → ℤ) (p1 p2 : ℕ)
    (h1 : p1 ∈ g) (h2 : p2 ∈ g) (hne : p1 ≠ p2) (hf : f p1 = f p2) :
    ¬ (g.map f).Nodup := by
  intro hmap
  exact hne (List.inj_on_of_nodup_map hmap h1 h2 hf)

theorem dedup_length_ne_of_not_nodup {l : List ℤ} (h : ¬ l.Nodup) :
    l.dedup.length ≠ l.length := by
  intro hlen
  exact h (List.dedup_eq_self.mp ((List.dedup_sublist l).eq_of_length hlen))

theorem neg_one_pow_mem (k : ℕ) : ((-1 : ℤ)) ^ k = 1 ∨ ((-1 : ℤ)) ^ k = -1 := by
  induction k with
  | zero => exact Or.inl rfl
  | succ n ih => rcases ih with h | h <;> simp [pow_succ, h]

theorem signatureZ_mem (l : List ℕ) : signatureZ l = 1 ∨ signatureZ l = -1 :=
  neg_one_pow_mem (inversions l)

/-- If some group of the antisymmetric list has two equal index values (and
the groups are collectively duplicate-free, hence pairwise disjoint), the
canonicalization loop returns `(0, None)`. -/
theorem antisymLoop_dup (groups : List (List ℕ)) (ind : List ℤ) (sign : ℤ)
    (hnd : groups.flatten.Nodup)
    (h : ∃ g ∈ groups, ∃ p1 p2, p1 ≠ p2 ∧ p1 ∈ g ∧ p2 ∈ g ∧
      ind.getD p1 0 = ind.getD p2 0) :
    antisymLoop ind groups sign = (0, none) := by
  induction groups generalizing ind sign with
  | nil => rcases h with ⟨g, hg, _⟩; simp at hg
  | cons h0 rest ih =>
      have hsplit := List.nodup_append.mp (by simpa using hnd)
      by_cases hdup : ((h0.map (fun p => ind.getD p 0)).dedup.length ≠
          (h0.map (fun p => ind.getD p 0)).length)
      · unfold antisymLoop
        rw [if_pos hdup]
      · rcases h with ⟨g, hg, p1, p2, hne, hp1, hp2, heq⟩
        rcases List.mem_cons.mp hg with hg0 | hgrest
        · exact absurd
            (dedup_length_ne_of_not_nodup
              (not_nodup_of_dup_map h0 _ p1 p2 (hg0 ▸ hp1) (hg0 ▸ hp2) hne heq))
            hdup
        · unfold antisymLoop
          rw [if_neg hdup]
          apply ih
          · exact hsplit.2.1
          · refine ⟨g, hgrest, p1, p2, hne, hp1, hp2, ?_⟩
            have hn1 : p1 ∉ h0 := fun hmem =>
              hsplit.2.2 hmem (List.mem_flatten.mpr ⟨g, hgrest, hp1⟩)
            have hn2 : p2 ∉ h0 := fun hmem =>
              hsplit.2.2 hmem (List.mem_flatten.mpr ⟨g, hgrest, hp2⟩)
            rw [writeBack_getD_not_mem h0 ind _ p1 hn1,
                writeBack_getD_not_mem h0 ind _ p2 hn2]
            exact heq

/-- The sign accumulated by the antisymmetric loop stays in `{1, -1}` as long
as the loop does not return `(0, None)`. -/
theorem antisymLoop_sign_mem (groups : List (List ℕ)) (ind : List ℤ) (sign : ℤ)
    (hs : sign = 1 ∨ sign = -1) (s : ℤ) (k : List ℤ)
    (h : antisymLoop ind groups sign = (s, some k)) : s = 1 ∨ s = -1 := by
  induction groups generalizing ind sign with
  | nil =>
      unfold antisymLoop at h
      cases h
      exact hs
  | cons g rest ih =>
      unfold antisymLoop at h
      by_cases hdup : ((g.map (fun p => ind.getD p 0)).dedup.length ≠
          (g.map (fun p => ind.getD p 0)).length)
      · simp only [if_pos hdup] at h
        exact absurd (congrArg Prod.snd h) (by simp)
      · simp only [if_neg hdup] at h
        by_cases hss : sortAsc (g.map (fun p => ind.getD p 0)) ≠
            (g.map (fun p => ind.getD p 0))
        · rw [if_pos hss] at h
          apply ih _ _ _ h
          rcases hs with h1 | h1 <;>
            rcases signatureZ_mem (permWord (g.map (fun p => ind.getD p 0))
              (sortAsc (g.map (fun p => ind.getD p 0)))) with h2 | h2 <;>
            rw [h1, h2] <;> simp
        · rw [if_neg hss] at h
          exact ih _ _ hs h

/-! ## Claim C10: comparison of a store with a number -/

/-- **C10**: comparing a store to a number with `==` is only defined against
zero — `c == 0` returns exactly `c.is_zero()` and `c != 0` its negation,
while comparing `c` to a nonzero integer raises
`TypeError("Cannot compare a set of components to a number.")` (for both
`==` and `!=`). -/
theorem claim_eq_number_zero_only {R : Type} [CommRing R] [DecidableEq R]
    (c : Components R) (n : ℤ) (hn : n ≠ 0) :
    c.eqNum 0 = .ok c.isZero ∧ c.neNum 0 = .ok (!c.isZero) ∧
    c.eqNum n = .error .typeError ∧ c.neNum n = .error .typeError := by
  refine ⟨rfl, rfl, ?_, ?_⟩
  · simp [Components.eqNum, hn]
  · simp [Components.neNum, Components.eqNum, hn, Bind.bind, Except.bind]

/-- Witness for C10 at the concrete store `trivStore` and the number `1`. -/
theorem claim_eq_number_zero_only_witness :
    (1 : ℤ) ≠ 0 ∧
    (trivStore.eqNum 0 = .ok trivStore.isZero ∧
     trivStore.neNum 0 = .ok (!trivStore.isZero) ∧
     trivStore.eqNum 1 = .error .typeError ∧
     trivStore.neNum 1 = .error .typeError) :=
  ⟨by decide, claim_eq_number_zero_only trivStore 1 (by decide)⟩

/-! ## Claim C4: self-contraction (trace) -/

/-- **C4** (code bug): on the 3×3 store `[[1,2,3],[4,5,6],[7,8,9]]`, the
diagonal read back through `get` sums to `15` as the specification requires,
but `self_contract(0, 1)` — whose validations all pass — executes
`si = self.manifold.sindex` (comp.py line 1039) and no `__init__` of the
family ever sets a `manifold` attribute, so the call raises `AttributeError`
instead of returning `15`. -/
theorem claim_self_contract_code_bug :
    comp123.selfContract 0 1 = .error .attributeError ∧
    ((do
      let a ← comp123.getPlain [0, 0]
      let b ← comp123.getPlain [1, 1]
      let c ← comp123.getPlain [2, 2]
      pure (a + b + c) : Except CompError ℤ) = .ok 15) :=
  ⟨rfl, rfl⟩

/-! ## Claim C6: Kronecker delta -/

/-- **C6** (code bug): `KroneckerDelta.__init__` calls
`CompFullySym.__init__(self, frame, 2)`, omitting the mandatory
`nb_indices` argument of the signature `(self, ring, frame, nb_indices, …)`,
so every construction raises `TypeError` before any diagonal entry is set
(the body would further read the never-set attributes `self.domain` and
`self.manifold`); the `Frozen` half of the claim is honoured by
`KroneckerDelta.__setitem__`, which unconditionally raises
`NotImplementedError`. -/
theorem claim_kronecker_code_bug :
    kroneckerDeltaInit ℤ 0 = .error .typeError ∧
    kroneckerDeltaSetitem ℤ
      { cls := .fullySym, frame := 0, dim := 3, nid := 2, sindex := 0,
        sym := [[0, 1]], antisym := [], comp := [] } [0, 0] 5 =
      .error .notImplementedError :=
  ⟨rfl, rfl⟩

/-! ## Decomposition lemmas for the canonicalization and access paths -/

theorem checkIndices_ok_eq {R : Type} [CommRing R] [DecidableEq R]
    {c : Components R} {ind0 ind : List ℤ}
    (h : c.checkIndices ind0 = .ok ind) : ind = ind0 := by
  unfold Components.checkIndices at h
  split at h
  · cases h
  · split at h
    · cases h; rfl
    · cases h

theorem orderedIndices_eq_ok {R : Type} [CommRing R] [DecidableEq R]
    {c : Components R} {ind0 : List ℤ} {out : ℤ × Option (List ℤ)}
    (h : c.orderedIndices ind0 = .ok out) :
    c.checkIndices ind0 = .ok ind0 ∧
    antisymLoop (c.sym.foldl symSortGroup ind0) c.antisym 1 = out := by
  unfold Components.orderedIndices at h
  cases hc : c.checkIndices ind0 with
  | error e =>
      rw [hc] at h
      exact absurd h (by simp [Bind.bind, Except.bind])
  | ok ind =>
      have he : ind = ind0 := checkIndices_ok_eq hc
      subst he
      rw [hc] at h
      exact ⟨rfl, by simpa [Bind.bind, Except.bind, Pure.pure, Except.pure] using h⟩

theorem orderedIndices_of_parts {R : Type} [CommRing R] [DecidableEq R]
    {c : Components R} {ind0 : List ℤ} {out : ℤ × Option (List ℤ)}
    (hc : c.checkIndices ind0 = .ok ind0)
    (hl : antisymLoop (c.sym.foldl symSortGroup ind0) c.antisym 1 = out) :
    c.orderedIndices ind0 = .ok out := by
  subst hl
  unfold Components.orderedIndices
  rw [hc]
  rfl

theorem orderedIndices_comp_irrel {R : Type} [CommRing R] [DecidableEq R]
    (c : Components R) (x : List (List ℤ × R)) (ind : List ℤ) :
    Components.orderedIndices { c with comp := x } ind = c.orderedIndices ind :=
  rfl

/-! ## Claim C2: the antisymmetry zero law -/

/-- **C2**: for a store whose spec contains an antisymmetric group and an
in-range index tuple with two equal values at positions of that group,
`get` returns the ring zero, `set` with a nonzero value raises the
antisymmetry-conflict `ValueError`, and `set` with the zero value succeeds
as a no-op leaving the backing dictionary unchanged (no canonical key exists
for such a tuple, so there is no stale entry to delete). -/
theorem claim_antisym_zero_law {R : Type} [CommRing R] [DecidableEq R]
    (c : Components R) (g : List ℕ) (p1 p2 : ℕ) (ind : List ℤ) (v : R)
    (hvalid : c.specValid) (hg : g ∈ c.antisym)
    (hp1 : p1 ∈ g) (hp2 : p2 ∈ g) (hne : p1 ≠ p2)
    (hok : c.checkIndices ind = .ok ind)
    (heq : ind.getD p1 0 = ind.getD p2 0) :
    c.getSym ind = .ok 0 ∧
    (v ≠ 0 → c.setSym ind v = .error .valueError) ∧
    c.setSym ind 0 = .ok c := by
  have hnd2 : (c.sym.flatten ++ c.antisym.flatten).Nodup := by
    rw [← List.flatten_append]; exact hvalid.2
  have hsplit := List.nodup_append.mp hnd2
  have hnotsym : ∀ p, p ∈ c.antisym.flatten → ∀ g' ∈ c.sym, p ∉ g' :=
    fun p hpf g' hg' hpg' =>
      hsplit.2.2 (List.mem_flatten.mpr ⟨g', hg', hpg'⟩) hpf
  have hp1f : p1 ∈ c.antisym.flatten := List.mem_flatten.mpr ⟨g, hg, hp1⟩
  have hp2f : p2 ∈ c.antisym.flatten := List.mem_flatten.mpr ⟨g, hg, hp2⟩
  have h1 := symPass_getD_not_mem c.sym ind p1 (fun g' hg' => hnotsym p1 hp1f g' hg')
  have h2 := symPass_getD_not_mem c.sym ind p2 (fun g' hg' => hnotsym p2 hp2f g' hg')
  have hloop := antisymLoop_dup c.antisym (c.sym.foldl symSortGroup ind) 1
    hsplit.2.1 ⟨g, hg, p1, p2, hne, hp1, hp2, by rw [h1, h2]; exact heq⟩
  have hOI : c.orderedIndices ind = .ok (0, none) :=
    orderedIndices_of_parts hok hloop
  refine ⟨?_, ?_, ?_⟩
  · simp [Components.getSym, hOI, Bind.bind, Except.bind, Pure.pure, Except.pure]
  · intro hv
    simp [Components.setSym, hOI, Bind.bind, Except.bind, hv]
  · simp [Components.setSym, hOI, Bind.bind, Except.bind, Pure.pure, Except.pure]

/-- Witness for C2: the antisymmetric store `antiStoreZ`, the tuple `(1, 1)`
and the value `7`. -/
theorem claim_antisym_zero_law_witness :
    (antiStoreZ.specValid ∧ [0, 1] ∈ antiStoreZ.antisym) ∧
    (antiStoreZ.getSym [1, 1] = .ok 0 ∧
     ((7 : ℤ) ≠ 0 → antiStoreZ.setSym [1, 1] 7 = .error .valueError) ∧
     antiStoreZ.setSym [1, 1] 0 = .ok antiStoreZ) :=
  ⟨⟨by decide, by decide⟩,
   claim_antisym_zero_law antiStoreZ [0, 1] 0 1 [1, 1] 7 (by decide)
     (by decide) (by decide) (by decide) (by decide) rfl (by decide)⟩

/-! ## Claim C1: read/write round trip with sign -/

/-- **C1**: on any store of the `CompWithSym` family, for an in-range tuple
`i` with canonical form `k` and nonzero sign `s`, and any other tuple `j`
with the same canonical form `k` (sign `s'`), after `set(i, v)` with
`v ≠ 0` a `get(i)` returns exactly `v` and a `get(j)` returns
`(s * s') • v` — the relative permutation parity between `i` and `j` times
`v`; both canonical signs lie in `{1, -1}`. -/
theorem claim_roundtrip_signed {R : Type} [CommRing R] [DecidableEq R]
    (c c' : Components R) (i j k : List ℤ) (v : R) (s s' : ℤ)
    (hi : c.orderedIndices i = .ok (s, some k))
    (hj : c.orderedIndices j = .ok (s', some k))
    (hv : v ≠ 0)
    (hset : c.setSym i v = .ok c') :
    c'.getSym i = .ok v ∧ c'.getSym j = .ok ((s * s') • v) ∧
    (s = 1 ∨ s = -1) ∧ (s' = 1 ∨ s' = -1) := by
  obtain ⟨hchki, hloopi⟩ := orderedIndices_eq_ok hi
  obtain ⟨hchkj, hloopj⟩ := orderedIndices_eq_ok hj
  have hs : s = 1 ∨ s = -1 :=
    antisymLoop_sign_mem _ _ _ (Or.inl rfl) _ _ hloopi
  have hs' : s' = 1 ∨ s' = -1 :=
    antisymLoop_sign_mem _ _ _ (Or.inl rfl) _ _ hloopj
  have hset2 : c.setSym i v =
      .ok { c with comp := PyDict.insert c.comp k (if s = 1 then v else -v) } := by
    simp [Components.setSym, hi, Bind.bind, Except.bind, hv, Pure.pure,
      Except.pure]
  have hc' : c' =
      { c with comp := PyDict.insert c.comp k (if s = 1 then v else -v) } := by
    rw [hset2] at hset
    injection hset with h
    exact h.symm
  have hOIi : c'.orderedIndices i = .ok (s, some k) := by
    rw [hc']; rw [orderedIndices_comp_irrel]; exact hi
  have hOIj : c'.orderedIndices j = .ok (s', some k) := by
    rw [hc']; rw [orderedIndices_comp_irrel]; exact hj
  have hlk : PyDict.lookup c'.comp k = some (if s = 1 then v else -v) := by
    rw [hc']
    exact PyDict.lookup_insert_self c.comp k (if s = 1 then v else -v)
  refine ⟨?_, ?_, hs, hs'⟩
  · rcases hs with h1 | h1 <;> subst h1 <;>
      simp [Components.getSym, hOIi, hlk, Bind.bind, Except.bind, Pure.pure,
        Except.pure]
  · rcases hs with h1 | h1 <;> rcases hs' with h2 | h2 <;> subst h1 <;>
      subst h2 <;>
      simp [Components.getSym, hOIj, hlk, Bind.bind, Except.bind, Pure.pure,
        Except.pure, one_smul, neg_one_smul]

/-- Witness for C1: `antiStoreZ` with `i = (1, 0)`, `j = (0, 1)` (canonical
key `(0, 1)`, signs `-1` and `1`) and value `5`. -/
theorem claim_roundtrip_signed_witness :
    (5 : ℤ) ≠ 0 ∧
    (antiStoreZset.getSym [1, 0] = .ok 5 ∧
     antiStoreZset.getSym [0, 1] = .ok ((((-1) * 1 : ℤ)) • (5 : ℤ)) ∧
     ((-1 : ℤ) = 1 ∨ (-1 : ℤ) = -1) ∧ ((1 : ℤ) = 1 ∨ (1 : ℤ) = -1)) :=
  ⟨by decide,
   claim_roundtrip_signed antiStoreZ antiStoreZset [1, 0] [0, 1] [0, 1] 5
     (-1) 1 rfl rfl (by decide) rfl⟩

/-! ## Claim C3: the no-zero-entries invariant -/

/-- **C3 counterexample**: over the commutative ring `ℤ/6ℤ`, the store with
the single entry `3` (reachable by one `set` call on a fresh store) violates
the no-zero-entries invariant after the scalar multiplication by `2`:
`__rmul__` writes `other * val` directly into the backing dictionary, and
`2 * 3 = 0` in `ℤ/6ℤ`, so the key `(0,)` remains with the stored value `0`. -/
theorem claim_no_zero_entries_counterexample :
    zmodEmpty.setPlain [0] 3 = .ok zmodStore ∧
    ¬ (Components.rmulScalar 2 zmodStore).noZeroEntries := by
  constructor
  · rfl
  · intro h
    exact (h ([0], 0) (by decide)) rfl

/-- Threading an invariant through a monadic fold over `Except`. -/
theorem foldlM_except_inv {α β : Type} (P : β → Prop)
    (f : β → α → Except CompError β)
    (hf : ∀ acc x r, P acc → f acc x = .ok r → P r) :
    ∀ (l : List α) (init res : β), P init →
      List.foldlM f init l = .ok res → P res := by
  intro l
  induction l with
  | nil =>
      intro init res hP h
      simp only [List.foldlM_nil, Pure.pure] at h
      cases h
      exact hP
  | cons x t ih =>
      intro init res hP h
      rw [List.foldlM_cons] at h
      cases hx : f init x with
      | error e =>
          rw [hx] at h
          exact absurd h (by simp [Bind.bind, Except.bind])
      | ok b =>
          rw [hx] at h
          exact ih b res (hf init x b hP hx)
            (by simpa [Bind.bind, Except.bind] using h)

theorem setPlain_noZero {R : Type} [CommRing R] [DecidableEq R]
    {c c' : Components R} {ind : List ℤ} {v : R}
    (hc : c.noZeroEntries) (h : c.setPlain ind v = .ok c') :
    c'.noZeroEntries := by
  unfold Components.setPlain at h
  cases hchk : c.checkIndices ind with
  | error e =>
      rw [hchk] at h
      exact absurd h (by simp [Bind.bind, Except.bind])
  | ok i =>
      rw [hchk] at h
      simp only [Bind.bind, Except.bind] at h
      by_cases hv : v = 0
      · rw [if_pos hv] at h
        simp only [Pure.pure] at h
        cases h
        intro kv hkv
        exact hc kv (PyDict.mem_erase _ _ _ hkv)
      · rw [if_neg hv] at h
        simp only [Pure.pure] at h
        cases h
        intro kv hkv
        rcases PyDict.mem_insert _ _ _ _ hkv with hmem | hEq
        · exact hc kv hmem
        · rw [hEq]; exact hv

theorem setSym_noZero {R : Type} [CommRing R] [DecidableEq R]
    {c c' : Components R} {ind : List ℤ} {v : R}
    (hc : c.noZeroEntries) (h : c.setSym ind v = .ok c') :
    c'.noZeroEntries := by
  unfold Components.setSym at h
  cases hOI : c.orderedIndices ind with
  | error e =>
      rw [hOI] at h
      exact absurd h (by simp [Bind.bind, Except.bind])
  | ok so =>
      rw [hOI] at h
      simp only [Bind.bind, Except.bind] at h
      cases hk : so.2 with
      | none =>
          rw [hk] at h
          by_cases hv : v ≠ 0
          · rw [if_pos hv] at h; cases h
          · rw [if_neg hv] at h
            simp only [Pure.pure] at h
            cases h
            exact hc
      | some k =>
          rw [hk] at h
          dsimp only at h
          by_cases hv : v = 0
          · rw [if_pos hv] at h
            simp only [Pure.pure] at h
            cases h
            intro kv hkv
            exact hc kv (PyDict.mem_erase _ _ _ hkv)
          · rw [if_neg hv] at h
            simp only [Pure.pure] at h
            cases h
            intro kv hkv
            rcases PyDict.mem_insert _ _ _ _ hkv with hmem | hEq
            · exact hc kv hmem
            · rw [hEq]
              by_cases hs : so.1 = 1
              · simpa [hs] using hv
              · simp only [if_neg hs]
                simpa using hv

theorem setFullySym_noZero {R : Type} [CommRing R] [DecidableEq R]
    {c c' : Components R} {ind : List ℤ} {v : R}
    (hc : c.noZeroEntries) (h : c.setFullySym ind v = .ok c') :
    c'.noZeroEntries := by
  unfold Components.setFullySym at h
  cases hOI : c.orderedIndices ind with
  | error e =>
      rw [hOI] at h
      exact absurd h (by simp [Bind.bind, Except.bind])
  | ok so =>
      rw [hOI] at h
      simp only [Bind.bind, Except.bind] at h
      cases hk : so.2 with
      | none =>
          rw [hk] at h
          simp only [Pure.pure] at h
          cases h
          exact hc
      | some k =>
          rw [hk] at h
          dsimp only at h
          by_cases hv : v = 0
          · rw [if_pos hv] at h
            simp only [Pure.pure] at h
            cases h
            intro kv hkv
            exact hc kv (PyDict.mem_erase _ _ _ hkv)
          · rw [if_neg hv] at h
            simp only [Pure.pure] at h
            cases h
            intro kv hkv
            rcases PyDict.mem_insert _ _ _ _ hkv with hmem | hEq
            · exact hc kv hmem
            · rw [hEq]; exact hv

theorem setAuto_noZero {R : Type} [CommRing R] [DecidableEq R]
    {c c' : Components R} {ind : List ℤ} {v : R}
    (hc : c.noZeroEntries) (h : c.setAuto ind v = .ok c') :
    c'.noZeroEntries := by
  unfold Components.setAuto at h
  cases hcls : c.cls <;> rw [hcls] at h
  · exact setPlain_noZero hc h
  · exact setSym_noZero hc h
  · exact setFullySym_noZero hc h
  · exact setSym_noZero hc h

theorem addInto_noZero {R : Type} [CommRing R] [DecidableEq R]
    {r r' : Components R} {kv : List ℤ × R}
    (hr : r.noZeroEntries) (h : Components.addInto r kv = .ok r') :
    r'.noZeroEntries := by
  unfold Components.addInto at h
  cases hg : r.getAuto kv.1 with
  | error e =>
      rw [hg] at h
      exact absurd h (by simp [Bind.bind, Except.bind])
  | ok cur =>
      rw [hg] at h
      simp only [Bind.bind, Except.bind] at h
      exact setAuto_noZero hr h

theorem neg_noZero {R : Type} [CommRing R] [DecidableEq R]
    {c : Components R} (hc : c.noZeroEntries) : c.neg.noZeroEntries := by
  intro kv hkv
  unfold Components.neg at hkv
  simp only [List.mem_map] at hkv
  rcases hkv with ⟨kv0, hmem, hEq⟩
  rw [← hEq]
  simpa using hc kv0 hmem

theorem addSym_noZero {R : Type} [CommRing R] [DecidableEq R]
    {a b c' : Components R}
    (ha : a.noZeroEntries) (h : Components.addSym a b = .ok c') :
    c'.noZeroEntries := by
  unfold Components.addSym at h
  by_cases hz : b.isZero = true
  · rw [if_pos hz] at h
    simp only [Pure.pure] at h
    cases h
    exact ha
  · rw [if_neg hz] at h
    split at h
    · cases h
    · split at h
      · cases h
      · split at h
        · cases h
        · split at h
          · -- identical symmetries: fold over b.comp starting from a.copy
            split at h
            · exact foldlM_except_inv _ _
                (fun acc x r hacc hx => addInto_noZero hacc hx)
                b.comp a.copy c' ha h
            · -- different symmetries: fold from the fresh result store
              simp only [Bind.bind, Except.bind] at h
              split at h
              · exact absurd h (by simp)
              · rename_i inds heq2
                refine foldlM_except_inv _ _
                  (fun acc x r hacc hx => ?_) inds _ c' (by intro kv hkv; split at hkv <;> simp at hkv) h
                unfold Components.addStep at hx
                cases hga : Components.getAuto a x with
                | error e => rw [hga] at hx; exact absurd hx (by simp [Bind.bind, Except.bind])
                | ok va =>
                    rw [hga] at hx
                    simp only [Bind.bind, Except.bind] at hx
                    cases hgb : Components.getAuto b x with
                    | error e => rw [hgb] at hx; exact absurd hx (by simp [Except.bind])
                    | ok vb =>
                        rw [hgb] at hx
                        simp only [Except.bind] at hx
                        exact setAuto_noZero hacc hx
          · -- other has no symmetry at all: same fold from a fresh plain store
            simp only [Bind.bind, Except.bind] at h
            split at h
            · exact absurd h (by simp)
            · rename_i inds heq2
              refine foldlM_except_inv _ _
                (fun acc x r hacc hx => ?_) inds _ c' (by intro kv hkv; simp at hkv) h
              unfold Components.addStep at hx
              cases hga : Components.getAuto a x with
              | error e => rw [hga] at hx; exact absurd hx (by simp [Bind.bind, Except.bind])
              | ok va =>
                  rw [hga] at hx
                  simp only [Bind.bind, Except.bind] at hx
                  cases hgb : Components.getAuto b x with
                  | error e => rw [hgb] at hx; exact absurd hx (by simp [Except.bind])
                  | ok vb =>
                      rw [hgb] at hx
                      simp only [Except.bind] at hx
                      exact setAuto_noZero hacc hx

theorem addPlain_noZero {R : Type} [CommRing R] [DecidableEq R]
    {a b c' : Components R}
    (ha : a.noZeroEntries) (hb : b.noZeroEntries)
    (h : Components.addPlain a b = .ok c') : c'.noZeroEntries := by
  unfold Components.addPlain at h
  by_cases hz : b.isZero = true
  · rw [if_pos hz] at h
    simp only [Pure.pure] at h
    cases h
    exact ha
  · rw [if_neg hz] at h
    split at h
    · exact addSym_noZero hb h
    · split at h
      · cases h
      · split at h
        · cases h
        · split at h
          · cases h
          · exact foldlM_except_inv _ _
              (fun acc x r hacc hx => addInto_noZero hacc hx)
              b.comp a.copy c' ha h

theorem addFullySym_noZero {R : Type} [CommRing R] [DecidableEq R]
    {a b c' : Components R}
    (ha : a.noZeroEntries)
    (h : Components.addFullySym a b = .ok c') : c'.noZeroEntries := by
  unfold Components.addFullySym at h
  by_cases hz : b.isZero = true
  · rw [if_pos hz] at h
    simp only [Pure.pure] at h
    cases h
    exact ha
  · rw [if_neg hz] at h
    split at h
    · split at h
      · cases h
      · split at h
        · cases h
        · split at h
          · cases h
          · exact foldlM_except_inv _ _
              (fun acc x r hacc hx => addInto_noZero hacc hx)
              b.comp a.copy c' ha h
    · exact addSym_noZero ha h

theorem addFullyAntiSym_noZero {R : Type} [CommRing R] [DecidableEq R]
    {a b c' : Components R}
    (ha : a.noZeroEntries)
    (h : Components.addFullyAntiSym a b = .ok c') : c'.noZeroEntries := by
  unfold Components.addFullyAntiSym at h
  by_cases hz : b.isZero = true
  · rw [if_pos hz] at h
    simp only [Pure.pure] at h
    cases h
    exact ha
  · rw [if_neg hz] at h
    split at h
    · split at h
      · cases h
      · split at h
        · cases h
        · split at h
          · cases h
          · exact foldlM_except_inv _ _
              (fun acc x r hacc hx => addInto_noZero hacc hx)
              b.comp a.copy c' ha h
    · exact addSym_noZero ha h

theorem addAuto_noZero {R : Type} [CommRing R] [DecidableEq R]
    {a b c' : Components R}
    (ha : a.noZeroEntries) (hb : b.noZeroEntries)
    (h : Components.addAuto a b = .ok c') : c'.noZeroEntries := by
  unfold Components.addAuto at h
  cases hcls : a.cls <;> rw [hcls] at h
  · exact addPlain_noZero ha hb h
  · exact addSym_noZero ha h
  · exact addFullySym_noZero ha h
  · exact addFullyAntiSym_noZero ha h

theorem subAuto_noZero {R : Type} [CommRing R] [DecidableEq R]
    {a b c' : Components R}
    (ha : a.noZeroEntries) (hb : b.noZeroEntries)
    (h : Components.subAuto a b = .ok c') : c'.noZeroEntries := by
  unfold Components.subAuto at h
  split at h
  · cases h
    exact ha
  · exact addAuto_noZero ha (neg_noZero hb) h

theorem rmulScalar_noZero {R : Type} [CommRing R] [IsDomain R] [DecidableEq R]
    {c : Components R} (k : R) (hc : c.noZeroEntries) :
    (Components.rmulScalar k c).noZeroEntries := by
  unfold Components.rmulScalar
  by_cases hk : k = 0
  · rw [if_pos hk]
    intro kv hkv
    simp at hkv
  · rw [if_neg hk]
    intro kv hkv
    simp only [List.mem_map] at hkv
    rcases hkv with ⟨kv0, hmem, hEq⟩
    rw [← hEq]
    exact mul_ne_zero hk (hc kv0 hmem)

theorem prodComp_noZero {R : Type} [CommRing R] [IsDomain R] [DecidableEq R]
    {da db : List (List ℤ × R)}
    (ha : ∀ kv ∈ da, kv.2 ≠ (0 : R)) (hb : ∀ kv ∈ db, kv.2 ≠ (0 : R)) :
    ∀ kv ∈ Components.prodComp da db, kv.2 ≠ (0 : R) := by
  intro kv hkv
  unfold Components.prodComp at hkv
  simp only [List.mem_flatMap, List.mem_map] at hkv
  rcases hkv with ⟨sv, hsv, ow, how, hEq⟩
  rw [← hEq]
  exact mul_ne_zero (ha sv hsv) (hb ow how)

theorem mulPlainDistinct_noZero {R : Type} [CommRing R] [IsDomain R]
    [DecidableEq R] {a b c' : Components R}
    (ha : a.noZeroEntries) (hb : b.noZeroEntries)
    (h : Components.mulPlainDistinct a b = .ok c') : c'.noZeroEntries := by
  unfold Components.mulPlainDistinct at h
  by_cases h1 : b.frame ≠ a.frame
  · rw [if_pos h1] at h; cases h
  · rw [if_neg h1] at h
    by_cases h2 : b.sindex ≠ a.sindex
    · rw [if_pos h2] at h; cases h
    · rw [if_neg h2] at h
      by_cases h3 : b.cls ≠ CompClass.plain
      · rw [if_pos h3] at h
        simp only [Pure.pure, Except.pure] at h
        cases h
        exact prodComp_noZero ha hb
      · rw [if_neg h3] at h
        simp only [Pure.pure, Except.pure] at h
        cases h
        exact prodComp_noZero ha hb

theorem mulSym_noZero {R : Type} [CommRing R] [IsDomain R]
    [DecidableEq R] {a b c' : Components R}
    (ha : a.noZeroEntries) (hb : b.noZeroEntries)
    (h : Components.mulSym a b = .ok c') : c'.noZeroEntries := by
  unfold Components.mulSym at h
  by_cases h1 : b.frame ≠ a.frame
  · rw [if_pos h1] at h; cases h
  · rw [if_neg h1] at h
    by_cases h2 : b.sindex ≠ a.sindex
    · rw [if_pos h2] at h; cases h
    · rw [if_neg h2] at h
      simp only [Pure.pure, Except.pure] at h
      cases h
      exact prodComp_noZero ha hb

theorem mulAutoDistinct_noZero {R : Type} [CommRing R] [IsDomain R]
    [DecidableEq R] {a b c' : Components R}
    (ha : a.noZeroEntries) (hb : b.noZeroEntries)
    (h : Components.mulAutoDistinct a b = .ok c') : c'.noZeroEntries := by
  unfold Components.mulAutoDistinct at h
  cases hcls : a.cls <;> rw [hcls] at h
  · exact mulPlainDistinct_noZero ha hb h
  · exact mulSym_noZero ha hb h
  · exact mulSym_noZero ha hb h
  · exact mulSym_noZero ha hb h

theorem mulPlainSelf_noZero {R : Type} [CommRing R] [IsDomain R]
    [DecidableEq R] {a c' : Components R}
    (ha : a.noZeroEntries)
    (h : Components.mulPlainSelf a = .ok c') : c'.noZeroEntries := by
  unfold Components.mulPlainSelf at h
  by_cases h1 : a.cls ≠ CompClass.plain
  · rw [if_pos h1] at h
    simp only [Pure.pure, Except.pure] at h
    cases h
    exact prodComp_noZero ha ha
  · rw [if_neg h1] at h
    by_cases h2 : a.nid = 1
    · rw [if_pos h2] at h
      simp only [Pure.pure, Except.pure] at h
      cases h
      exact prodComp_noZero ha ha
    · rw [if_neg h2] at h
      simp only [Pure.pure, Except.pure] at h
      cases h
      exact prodComp_noZero ha ha

theorem mulAutoSelf_noZero {R : Type} [CommRing R] [IsDomain R]
    [DecidableEq R] {a c' : Components R}
    (ha : a.noZeroEntries)
    (h : Components.mulAutoSelf a = .ok c') : c'.noZeroEntries := by
  unfold Components.mulAutoSelf at h
  cases hcls : a.cls <;> rw [hcls] at h
  · exact mulPlainSelf_noZero ha h
  · exact mulSym_noZero ha ha h
  · exact mulSym_noZero ha ha h
  · exact mulSym_noZero ha ha h

theorem divScalar_noZero {K : Type} [Field K] [DecidableEq K]
    {a c' : Components K} {k : K}
    (ha : a.noZeroEntries)
    (h : Components.divScalar K a k = .ok c') : c'.noZeroEntries := by
  unfold Components.divScalar at h
  by_cases hcond : k = 0 ∧ a.comp ≠ []
  · rw [if_pos hcond] at h; cases h
  · rw [if_neg hcond] at h
    cases h
    intro kv hkv
    simp only [List.mem_map] at hkv
    rcases hkv with ⟨kv0, hmem, hEq⟩
    rw [← hEq]
    by_cases hk : k = 0
    · exfalso
      apply hcond
      refine ⟨hk, ?_⟩
      intro hnil
      rw [hnil] at hmem
      simp at hmem
    · exact div_ne_zero (ha kv0 hmem) hk

/-- **C3 amended**: the no-zero-entries invariant is preserved by every
`set` (any class), by negation, addition and subtraction over *any*
commutative coefficient ring, and by scalar multiplication and the tensor
product over any commutative ring *without zero divisors* (by scalar
division over any field) — the restriction the counterexample over `ℤ/6ℤ`
forces, since `__rmul__` and `__mul__` write raw products into the backing
dictionary. -/
theorem claim_no_zero_entries_amended :
    (∀ (R : Type) [CommRing R] [DecidableEq R] (a b c' : Components R)
       (ind : List ℤ) (v : R),
        a.noZeroEntries → b.noZeroEntries →
        (a.setAuto ind v = .ok c' → c'.noZeroEntries) ∧
        a.neg.noZeroEntries ∧
        (Components.addAuto a b = .ok c' → c'.noZeroEntries) ∧
        (Components.subAuto a b = .ok c' → c'.noZeroEntries)) ∧
    (∀ (R : Type) [CommRing R] [IsDomain R] [DecidableEq R]
       (a b c' : Components R) (k : R),
        a.noZeroEntries → b.noZeroEntries →
        (Components.rmulScalar k a).noZeroEntries ∧
        (Components.mulAutoDistinct a b = .ok c' → c'.noZeroEntries) ∧
        (Components.mulAutoSelf a = .ok c' → c'.noZeroEntries)) ∧
    (∀ (K : Type) [Field K] [DecidableEq K] (a c' : Components K) (k : K),
        a.noZeroEntries →
        (Components.divScalar K a k = .ok c' → c'.noZeroEntries)) := by
  refine ⟨?_, ?_, ?_⟩
  · intro R _ _ a b c' ind v ha hb
    exact ⟨fun h => setAuto_noZero ha h, neg_noZero ha,
      fun h => addAuto_noZero ha hb h, fun h => subAuto_noZero ha hb h⟩
  · intro R _ _ _ a b c' k ha hb
    exact ⟨rmulScalar_noZero k ha, fun h => mulAutoDistinct_noZero ha hb h,
      fun h => mulAutoSelf_noZero ha h⟩
  · intro K _ _ a c' k ha
    exact fun h => divScalar_noZero ha h

/-- Witness for the amended C3: the concrete `ℤ` store `comp123` satisfies
the invariant, and so do its negation and its scalar multiple by `2`. -/
theorem claim_no_zero_entries_amended_witness :
    comp123.noZeroEntries ∧ comp123.neg.noZeroEntries ∧
    (Components.rmulScalar (2 : ℤ) comp123).noZeroEntries :=
  ⟨by decide,
   (claim_no_zero_entries_amended.1 ℤ comp123 comp123 comp123 [0] 0
     (by decide) (by decide)).2.1,
   (claim_no_zero_entries_amended.2.1 ℤ comp123 comp123 comp123 2
     (by decide) (by decide)).1⟩

/-! ## Claim C8: the v⊗v fully-symmetric flag -/

/-- **C8 counterexample**: a 1-index `CompWithSym` store with empty symmetry
lists (which `CompWithSym.__init__` accepts) multiplied by itself dispatches
to `CompWithSym.__mul__`, which has no `self is other` branch: the result is
a `CompWithSym` with an empty symmetry spec, not a fully symmetric store —
refuting the claim's "for every two stores … whenever both operands are
single-index and are literally the same store". -/
theorem claim_tensor_square_counterexample :
    Components.mulAutoSelf vecWithSym = .ok vecWithSymSq ∧
    vecWithSymSq.sym = [] ∧ vecWithSymSq.cls ≠ .fullySym :=
  ⟨rfl, rfl, by decide⟩

/-- **C8 amended**: whenever both operands of the tensor product are
single-index *plain* `Components` stores and are literally the same store
object, the result is flagged fully symmetric (class `CompFullySym`,
symmetry spec the full symmetric group `[[0, 1]]` on both positions). -/
theorem claim_tensor_square_amended {R : Type} [CommRing R] [DecidableEq R]
    (a r : Components R) (hcls : a.cls = .plain) (hnid : a.nid = 1)
    (h : Components.mulAutoSelf a = .ok r) :
    r.cls = .fullySym ∧ r.sym = [[0, 1]] ∧ r.antisym = [] ∧ r.nid = 2 := by
  unfold Components.mulAutoSelf at h
  rw [hcls] at h
  unfold Components.mulPlainSelf at h
  rw [hcls] at h
  simp only [ne_eq, not_true_eq_false, if_false, reduceIte] at h
  rw [if_pos hnid] at h
  simp only [Pure.pure, Except.pure] at h
  cases h
  exact ⟨rfl, rfl, rfl, rfl⟩

/-- Witness for the amended C8: `trivStore ⊗ trivStore`. -/
theorem claim_tensor_square_amended_witness :
    (trivStore.cls = .plain ∧ trivStore.nid = 1) ∧
    (trivStoreSq.cls = .fullySym ∧ trivStoreSq.sym = [[0, 1]] ∧
     trivStoreSq.antisym = [] ∧ trivStoreSq.nid = 2) :=
  ⟨⟨rfl, rfl⟩, claim_tensor_square_amended trivStore trivStoreSq rfl rfl rfl⟩

/-! ## Claim C7: symmetrize/antisymmetrize orthogonality -/

theorem interferenceLoop_none (groups : List (List ℕ)) (pos g : List ℕ)
    (p1 p2 : ℕ) (hg : g ∈ groups) (hp1g : p1 ∈ g) (hp2g : p2 ∈ g)
    (hp1 : p1 ∈ pos) (hp2 : p2 ∈ pos) (hne : p1 ≠ p2) :
    interferenceLoop pos groups = none := by
  induction groups with
  | nil => simp at hg
  | cons h0 rest ih =>
      rcases List.mem_cons.mp hg with hg0 | hgrest
      · subst hg0
        have hf1 : p1 ∈ g.filter (· ∈ pos) :=
          List.mem_filter.mpr ⟨hp1g, by simpa using hp1⟩
        have hf2 : p2 ∈ g.filter (· ∈ pos) :=
          List.mem_filter.mpr ⟨hp2g, by simpa using hp2⟩
        unfold interferenceLoop
        cases hfl : g.filter (· ∈ pos) with
        | nil => rw [hfl] at hf1; simp at hf1
        | cons x xs =>
            cases xs with
            | nil =>
                rw [hfl] at hf1 hf2
                simp only [List.mem_singleton] at hf1 hf2
                exact absurd (hf1.trans hf2.symm) hne
            | cons y ys => rfl
      · have hrec := ih hgrest
        unfold interferenceLoop
        cases hfl : h0.filter (· ∈ pos) with
        | nil => rw [hrec]; rfl
        | cons x xs =>
            cases xs with
            | nil =>
                dsimp only
                split
                · rw [hrec]; rfl
                · exact hrec
            | cons y ys => rfl

/-- **C7**: (i) symmetrizing any store (of the `CompWithSym` family, over a
field) over a set of positions of which at least two lie in one existing
antisymmetric group yields the identically zero store (an empty
`CompFullySym`); (ii) dually, antisymmetrizing over positions two of which
lie in one existing symmetric group yields an empty `CompFullyAntiSym`;
(iii) the concrete scenario: for the 2-index store over `ℚ` antisymmetric on
`(0, 1)` with `store[0, 1] = 3`, `store.symmetrize((0, 1))` is the empty
fully symmetric (zero) store and `store[1, 0] = -3`. -/
theorem claim_sym_antisym_orthogonality :
    (∀ (K : Type) [Field K] [DecidableEq K] (c : Components K)
       (pos g : List ℕ) (p1 p2 : ℕ),
        c.specValid → g ∈ c.antisym → p1 ∈ g → p2 ∈ g → p1 ∈ pos →
        p2 ∈ pos → p1 ≠ p2 → 2 ≤ pos.length → pos.length ≤ c.nid →
        c.symmetrize (some pos) = .ok c.emptyFullySym ∧
        c.emptyFullySym.isZero = true) ∧
    (∀ (K : Type) [Field K] [DecidableEq K] (c : Components K)
       (pos g : List ℕ) (p1 p2 : ℕ),
        c.specValid → g ∈ c.sym → p1 ∈ g → p2 ∈ g → p1 ∈ pos →
        p2 ∈ pos → p1 ≠ p2 → 2 ≤ pos.length → pos.length ≤ c.nid →
        c.antisymmetrize (some pos) = .ok c.emptyFullyAntiSym ∧
        c.emptyFullyAntiSym.isZero = true) ∧
    (antiStoreQ.symmetrize (some [0, 1]) = .ok antiStoreQ.emptyFullySym ∧
     antiStoreQ.emptyFullySym.comp = [] ∧
     antiStoreQ.getSym [1, 0] = .ok (-3)) := by
  refine ⟨?_, ?_, rfl, rfl, rfl⟩
  · intro K _ _ c pos g p1 p2 hvalid hg hp1g hp2g hp1 hp2 hne hlen2 hlenn
    have hnd2 : (c.sym.flatten ++ c.antisym.flatten).Nodup := by
      rw [← List.flatten_append]; exact hvalid.2
    have hsplit := List.nodup_append.mp hnd2
    have hfast : c.sym.any (fun isym => pos.all (· ∈ isym)) = false := by
      rw [List.any_eq_false]
      intro isym hisym hall
      rw [List.all_eq_true] at hall
      have : p1 ∈ isym := by simpa using hall p1 (by simpa using hp1)
      exact hsplit.2.2 (List.mem_flatten.mpr ⟨isym, hisym, this⟩)
        (List.mem_flatten.mpr ⟨g, hg, hp1g⟩)
    have hinterf := interferenceLoop_none c.antisym pos g p1 p2 hg hp1g
      hp2g hp1 hp2 hne
    refine ⟨?_, rfl⟩
    unfold Components.symmetrize
    dsimp only
    rw [if_neg (by omega : ¬ pos.length < 2), if_neg (by omega : ¬ pos.length > c.nid)]
    simp only [Bind.bind, Except.bind, Pure.pure, Except.pure]
    rw [hfast]
    simp only [Bool.false_eq_true, if_false]
    rw [hinterf]
  · intro K _ _ c pos g p1 p2 hvalid hg hp1g hp2g hp1 hp2 hne hlen2 hlenn
    have hnd2 : (c.sym.flatten ++ c.antisym.flatten).Nodup := by
      rw [← List.flatten_append]; exact hvalid.2
    have hsplit := List.nodup_append.mp hnd2
    have hfast : c.antisym.any (fun iasym => pos.all (· ∈ iasym)) = false := by
      rw [List.any_eq_false]
      intro iasym hiasym hall
      rw [List.all_eq_true] at hall
      have : p1 ∈ iasym := by simpa using hall p1 (by simpa using hp1)
      exact hsplit.2.2 (List.mem_flatten.mpr ⟨g, hg, hp1g⟩)
        (List.mem_flatten.mpr ⟨iasym, hiasym, this⟩)
    have hinterf := interferenceLoop_none c.sym pos g p1 p2 hg hp1g
      hp2g hp1 hp2 hne
    refine ⟨?_, rfl⟩
    unfold Components.antisymmetrize
    dsimp only
    rw [if_neg (by omega : ¬ pos.length < 2), if_neg (by omega : ¬ pos.length > c.nid)]
    simp only [Bind.bind, Except.bind, Pure.pure, Except.pure]
    rw [hfast]
    simp only [Bool.false_eq_true, if_false]
    rw [hinterf]

/-- Witness for C7's quantified parts: the symmetrize half on `antiStoreQ`
and the antisymmetrize half on `symStoreQ`, both over positions `(0, 1)`. -/
theorem claim_sym_antisym_orthogonality_witness :
    (antiStoreQ.specValid ∧ symStoreQ.specValid) ∧
    (antiStoreQ.symmetrize (some [0, 1]) = .ok antiStoreQ.emptyFullySym ∧
     antiStoreQ.emptyFullySym.isZero = true) ∧
    (symStoreQ.antisymmetrize (some [0, 1]) = .ok symStoreQ.emptyFullyAntiSym ∧
     symStoreQ.emptyFullyAntiSym.isZero = true) :=
  ⟨⟨by decide, by decide⟩,
   claim_sym_antisym_orthogonality.1 ℚ antiStoreQ [0, 1] [0, 1] 0 1
     (by decide) (by decide) (by decide) (by decide) (by decide) (by decide)
     (by decide) (by decide) (by decide),
   claim_sym_antisym_orthogonality.2.1 ℚ symStoreQ [0, 1] [0, 1] 0 1
     (by decide) (by decide) (by decide) (by decide) (by decide) (by decide)
     (by decide) (by decide) (by decide)⟩

/-! ## Claim C5: addition with differing symmetry specs -/

namespace PyDict

variable {R : Type}

theorem lookup_insert_ne [DecidableEq R] (d : List (List ℤ × R))
    (k k' : List ℤ) (v : R) (h : k ≠ k') :
    lookup (insert d k v) k' = lookup d k' := by
  induction d with
  | nil => simp [insert, lookup, h]
  | cons kv rest ih =>
      by_cases hk : kv.1 = k
      · simp [insert, lookup, hk, h]
      · simp only [insert, if_neg hk, lookup]
        by_cases hk' : kv.1 = k'
        · simp [hk']
        · simp [hk', ih]

theorem lookup_erase_ne (d : List (List ℤ × R)) (k k' : List ℤ) (h : k ≠ k') :
    lookup (erase d k) k' = lookup d k' := by
  induction d with
  | nil => rfl
  | cons kv rest ih =>
      by_cases hk : kv.1 = k
      · have hne : ¬ kv.1 = k' := fun hh => h (hk ▸ hh)
        simp only [erase, if_pos hk, lookup]
        rw [if_neg hne]
      · simp only [erase, if_neg hk, lookup]
        by_cases hk' : kv.1 = k'
        · simp [hk']
        · simp [hk', ih]

theorem distinctKeys_nil : distinctKeys ([] : List (List ℤ × R)) := by
  simp [distinctKeys]

theorem lookup_eq_none_of_not_memKey (d : List (List ℤ × R)) (k : List ℤ)
    (h : k ∉ d.map Prod.fst) : lookup d k = none := by
  induction d with
  | nil => rfl
  | cons kv rest ih =>
      simp only [List.map_cons, List.mem_cons] at h
      push_neg at h
      simp only [lookup, if_neg (fun hh : kv.1 = k => h.1 hh.symm)]
      exact ih h.2

theorem lookup_erase_self (d : List (List ℤ × R)) (k : List ℤ)
    (hd : distinctKeys d) : lookup (erase d k) k = none := by
  induction d with
  | nil => rfl
  | cons kv rest ih =>
      unfold distinctKeys at hd
      simp only [List.map_cons, List.nodup_cons] at hd
      by_cases hk : kv.1 = k
      · simp only [erase, if_pos hk]
        exact lookup_eq_none_of_not_memKey rest k (hk ▸ hd.1)
      · simp only [erase, if_neg hk, lookup, if_neg hk]
        exact ih hd.2

theorem memKey_insert (d : List (List ℤ × R)) (k k' : List ℤ) (v : R)
    (h : k' ∈ (insert d k v).map Prod.fst) :
    k' ∈ d.map Prod.fst ∨ k' = k := by
  induction d with
  | nil => simp [insert] at h; right; exact h
  | cons kv rest ih =>
      by_cases hk : kv.1 = k
      · simp only [insert, if_pos hk, List.map_cons, List.mem_cons] at h
        rcases h with h | h
        · right; exact h
        · left; simp [List.mem_cons]; right
          simpa using h
      · simp only [insert, if_neg hk, List.map_cons, List.mem_cons] at h
        rcases h with h | h
        · left; simp [h]
        · rcases ih h with h' | h'
          · left; simp [List.mem_cons]; right; simpa using h'
          · right; exact h'

theorem distinctKeys_insert [DecidableEq R] (d : List (List ℤ × R))
    (k : List ℤ) (v : R) (hd : distinctKeys d) :
    distinctKeys (insert d k v) := by
  induction d with
  | nil => simp [insert, distinctKeys]
  | cons kv rest ih =>
      unfold distinctKeys at hd ⊢
      simp only [List.map_cons, List.nodup_cons] at hd
      by_cases hk : kv.1 = k
      · simp only [insert, if_pos hk, List.map_cons, List.nodup_cons]
        exact ⟨hk ▸ hd.1, hd.2⟩
      · simp only [insert, if_neg hk, List.map_cons, List.nodup_cons]
        refine ⟨?_, ih hd.2⟩
        intro hmem
        rcases memKey_insert rest k kv.1 v hmem with h' | h'
        · exact hd.1 h'
        · exact hk h'

theorem memKey_erase (d : List (List ℤ × R)) (k k' : List ℤ)
    (h : k' ∈ (erase d k).map Prod.fst) : k' ∈ d.map Prod.fst := by
  have := PyDict.mem_erase d k
  rcases List.mem_map.mp h with ⟨kv, hkv, hEq⟩
  exact List.mem_map.mpr ⟨kv, this kv hkv, hEq⟩

theorem distinctKeys_erase (d : List (List ℤ × R)) (k : List ℤ)
    (hd : distinctKeys d) : distinctKeys (erase d k) := by
  induction d with
  | nil => exact hd
  | cons kv rest ih =>
      unfold distinctKeys at hd ⊢
      simp only [List.map_cons, List.nodup_cons] at hd
      by_cases hk : kv.1 = k
      · simp only [erase, if_pos hk]
        exact hd.2
      · simp only [erase, if_neg hk, List.map_cons, List.nodup_cons]
        exact ⟨fun hmem => hd.1 (memKey_erase rest k kv.1 hmem), ih hd.2⟩

end PyDict

theorem set_getD_self : ∀ (l : List ℤ) (i : ℕ), l.set i (l.getD i 0) = l := by
  intro l
  induction l with
  | nil => intro i; rfl
  | cons a t ih =>
      intro i
      cases i with
      | zero => rfl
      | succ n => simp only [List.set, List.getD_cons_succ, ih]

theorem insertSorted_of_le (a : ℤ) (t : List ℤ)
    (h : ∀ x ∈ t, a ≤ x) : insertSorted a t = a :: t := by
  cases t with
  | nil => rfl
  | cons b t' =>
      unfold insertSorted
      rw [if_pos (h b (List.mem_cons_self _ _))]

theorem sortAsc_eq_self_of_pairwise (l : List ℤ)
    (h : l.Pairwise (· ≤ ·)) : sortAsc l = l := by
  induction l with
  | nil => rfl
  | cons a t ih =>
      have ht := List.Pairwise.of_cons h
      show insertSorted a (sortAsc t) = a :: t
      rw [ih ht]
      exact insertSorted_of_le a t (fun x hx => List.rel_of_pairwise_cons h hx)

/-- Writing each position's own value back at that position is the
identity. -/
theorem writeBack_self (g : List ℕ) (ind : List ℤ) :
    writeBack ind g (g.map (fun p => ind.getD p 0)) = ind := by
  induction g generalizing ind with
  | nil => rfl
  | cons p g' ih =>
      show writeBack (ind.set p (ind.getD p 0)) g'
        (g'.map (fun q => ind.getD q 0)) = ind
      rw [set_getD_self]
      exact ih ind

/-- The consecutive-pair test over `g.zip g.tail` is exactly a `Chain'`. -/
theorem chain'_of_zip_tail {α : Type} (r : α → α → Prop) [DecidableRel r] :
    ∀ (g : List α), ((g.zip g.tail).all fun pq => decide (r pq.1 pq.2)) = true →
      List.Chain' r g
  | [] => fun _ => List.chain'_nil
  | [_] => fun _ => List.chain'_singleton _
  | p :: q :: rest => fun h => by
      simp only [List.tail_cons, List.zip_cons_cons, List.all_cons,
        Bool.and_eq_true, decide_eq_true_eq] at h
      refine List.chain'_cons.mpr ⟨h.1, ?_⟩
      apply chain'_of_zip_tail r (q :: rest)
      simp only [List.tail_cons]
      exact h.2

/-- The values of `ind` along a group whose `ordered` consecutive-pair test
(non-strict) passes are pairwise non-decreasing. -/
theorem group_vals_pairwise_le (ind : List ℤ) (g : List ℕ)
    (h : (g.zip g.tail).all
      (fun pq => decide (ind.getD pq.1 0 ≤ ind.getD pq.2 0)) = true) :
    (g.map (fun p => ind.getD p 0)).Pairwise (· ≤ ·) := by
  rw [← List.chain'_iff_pairwise, List.chain'_map]
  exact chain'_of_zip_tail _ g h

/-- Strict version for antisymmetric groups. -/
theorem group_vals_pairwise_lt (ind : List ℤ) (g : List ℕ)
    (h : (g.zip g.tail).all
      (fun pq => decide (ind.getD pq.1 0 < ind.getD pq.2 0)) = true) :
    (g.map (fun p => ind.getD p 0)).Pairwise (· < ·) := by
  rw [← List.chain'_iff_pairwise, List.chain'_map]
  exact chain'_of_zip_tail _ g h

theorem symPass_id (ind : List ℤ) (syms : List (List ℕ))
    (h : ∀ g ∈ syms, (g.zip g.tail).all
      (fun pq => decide (ind.getD pq.1 0 ≤ ind.getD pq.2 0)) = true) :
    syms.foldl symSortGroup ind = ind := by
  induction syms with
  | nil => rfl
  | cons g rest ih =>
      have hg : symSortGroup ind g = ind := by
        show writeBack ind g (sortAsc (g.map (fun p => ind.getD p 0))) = ind
        rw [sortAsc_eq_self_of_pairwise _
          (group_vals_pairwise_le ind g (h g (List.mem_cons_self _ _)))]
        exact writeBack_self g ind
      show rest.foldl symSortGroup (symSortGroup ind g) = ind
      rw [hg]
      exact ih (fun g' hg' => h g' (List.mem_cons_of_mem _ hg'))

theorem antisymLoop_id (ind : List ℤ) (groups : List (List ℕ))
    (h : ∀ g ∈ groups, (g.zip g.tail).all
      (fun pq => decide (ind.getD pq.1 0 < ind.getD pq.2 0)) = true) :
    antisymLoop ind groups 1 = (1, some ind) := by
  induction groups with
  | nil => rfl
  | cons g rest ih =>
      have hlt := group_vals_pairwise_lt ind g (h g (List.mem_cons_self _ _))
      have hnd : (g.map (fun p => ind.getD p 0)).Nodup :=
        hlt.imp (fun hab => ne_of_lt hab)
      have hsorted : sortAsc (g.map (fun p => ind.getD p 0)) =
          g.map (fun p => ind.getD p 0) :=
        sortAsc_eq_self_of_pairwise _ (hlt.imp (fun hab => le_of_lt hab))
      unfold antisymLoop
      rw [if_neg (fun hne => hne (by rw [List.dedup_eq_self.mpr hnd]))]
      show antisymLoop (writeBack ind g (sortAsc (g.map (fun p => ind.getD p 0))))
        rest
        (if sortAsc (g.map (fun p => ind.getD p 0)) ≠
            g.map (fun p => ind.getD p 0) then
          1 * signatureZ (permWord (g.map (fun p => ind.getD p 0))
            (sortAsc (g.map (fun p => ind.getD p 0))))
        else 1) = (1, some ind)
      rw [hsorted, writeBack_self]
      rw [if_neg (fun hne => hne rfl)]
      exact ih (fun g' hg' => h g' (List.mem_cons_of_mem _ hg'))

/-- A tuple passing `checkIndices` whose `ordered` test holds is its own
canonical form with sign `+1`. -/
theorem canonicalSelf_of_ordered {R : Type} [CommRing R] [DecidableEq R]
    (c : Components R) (ind : List ℤ)
    (hchk : c.checkIndices ind = .ok ind)
    (hord : c.orderedTuple ind = true) :
    c.orderedIndices ind = .ok (1, some ind) := by
  unfold Components.orderedTuple at hord
  rw [Bool.and_eq_true] at hord
  have hord2 := hord.2
  rw [List.all_eq_true] at hord2
  have hord1 := hord.1
  rw [List.all_eq_true] at hord1
  have hsym : c.sym.foldl symSortGroup ind = ind :=
    symPass_id ind c.sym (fun g hg => hord1 g hg)
  have hanti : antisymLoop ind c.antisym 1 = (1, some ind) :=
    antisymLoop_id ind c.antisym (fun g hg => hord2 g hg)
  exact orderedIndices_of_parts hchk (by rw [hsym]; exact hanti)

theorem mem_indexTuples {si : ℤ} {dim : ℕ} :
    ∀ {n : ℕ} {t : List ℤ}, t ∈ indexTuples si dim n →
      t.length = n ∧ ∀ x ∈ t, si ≤ x ∧ x ≤ (dim : ℤ) - 1 + si := by
  intro n
  induction n with
  | zero =>
      intro t ht
      simp only [indexTuples, List.mem_singleton] at ht
      subst ht
      exact ⟨rfl, by simp⟩
  | succ m ih =>
      intro t ht
      unfold indexTuples at ht
      rcases List.mem_flatMap.mp ht with ⟨i, hi, hti⟩
      rcases List.mem_map.mp hti with ⟨t', ht', hEq⟩
      rcases List.mem_map.mp hi with ⟨k, hk, hik⟩
      rcases ih ht' with ⟨hlen, hbound⟩
      subst hEq
      refine ⟨by simp [hlen], ?_⟩
      intro x hx
      rcases List.mem_cons.mp hx with hx0 | hxt
      · subst hx0
        have hkd : k < dim := List.mem_range.mp hk
        omega
      · exact hbound x hxt

theorem checkIndices_ok_of_mem {R : Type} [CommRing R] [DecidableEq R]
    (c : Components R) {t : List ℤ}
    (h : t ∈ indexTuples c.sindex c.dim c.nid) :
    c.checkIndices t = .ok t := by
  rcases mem_indexTuples h with ⟨hlen, hbound⟩
  unfold Components.checkIndices
  rw [if_neg (by simp [hlen])]
  rw [if_pos]
  rw [List.all_eq_true]
  intro x hx
  simpa using hbound x hx

theorem indexTuples_nodup (si : ℤ) (dim : ℕ) :
    ∀ n, (indexTuples si dim n).Nodup := by
  intro n
  induction n with
  | zero => simp [indexTuples]
  | succ m ih =>
      unfold indexTuples
      rw [List.nodup_flatMap]
      refine ⟨?_, ?_⟩
      · intro i hi
        exact ih.map (fun t1 t2 h => by injection h)
      · have hpair : ((List.range dim).map (fun (k : ℕ) => si + (k : ℤ))).Pairwise
            (· ≠ ·) := by
          refine List.Pairwise.map _ ?_ (List.pairwise_lt_range dim)
          intro a b hab hEq
          omega
        apply hpair.imp
        intro i j hij
        intro t hti htj
        rcases List.mem_map.mp hti with ⟨t1, _, hEq1⟩
        rcases List.mem_map.mp htj with ⟨t2, _, hEq2⟩
        rw [← hEq1] at hEq2
        injection hEq2 with hh _
        exact hij hh.symm

theorem checkIndices_comp_irrel {R : Type} [CommRing R] [DecidableEq R]
    (c : Components R) (x : List (List ℤ × R)) (ind : List ℤ) :
    Components.checkIndices { c with comp := x } ind = c.checkIndices ind :=
  rfl

theorem setAuto_shape {R : Type} [CommRing R] [DecidableEq R]
    {c c' : Components R} {ind : List ℤ} {v : R}
    (h : c.setAuto ind v = .ok c') : ∃ d, c' = { c with comp := d } := by
  have hself : ∃ d, c = { c with comp := d } := ⟨c.comp, rfl⟩
  unfold Components.setAuto at h
  cases hcls : c.cls <;> rw [hcls] at h
  case plain =>
    unfold Components.setPlain at h
    cases hchk : c.checkIndices ind with
    | error e => rw [hchk] at h; exact absurd h (by simp [Bind.bind, Except.bind])
    | ok i =>
        rw [hchk] at h
        simp only [Bind.bind, Except.bind] at h
        by_cases hv : v = 0
        · rw [if_pos hv] at h
          simp only [Pure.pure] at h
          cases h
          exact ⟨_, by rw [hcls]⟩
        · rw [if_neg hv] at h
          simp only [Pure.pure] at h
          cases h
          exact ⟨_, by rw [hcls]⟩
  case fullySym =>
    unfold Components.setFullySym at h
    cases hOI : c.orderedIndices ind with
    | error e => rw [hOI] at h; exact absurd h (by simp [Bind.bind, Except.bind])
    | ok so =>
        rw [hOI] at h
        simp only [Bind.bind, Except.bind] at h
        cases hk : so.2 with
        | none =>
            rw [hk] at h
            simp only [Pure.pure] at h
            cases h
            exact ⟨c.comp, by rw [← hcls]⟩
        | some k =>
            rw [hk] at h
            dsimp only at h
            by_cases hv : v = 0
            · rw [if_pos hv] at h
              simp only [Pure.pure] at h
              cases h
              exact ⟨_, by rw [hcls]⟩
            · rw [if_neg hv] at h
              simp only [Pure.pure] at h
              cases h
              exact ⟨_, by rw [hcls]⟩
  all_goals
    unfold Components.setSym at h
    cases hOI : c.orderedIndices ind with
    | error e => rw [hOI] at h; exact absurd h (by simp [Bind.bind, Except.bind])
    | ok so =>
        rw [hOI] at h
        simp only [Bind.bind, Except.bind] at h
        cases hk : so.2 with
        | none =>
            rw [hk] at h
            dsimp only at h
            by_cases hv : v ≠ 0
            · rw [if_pos hv] at h; cases h
            · rw [if_neg hv] at h
              simp only [Pure.pure] at h
              cases h
              exact ⟨c.comp, by rw [← hcls]⟩
        | some k =>
            rw [hk] at h
            dsimp only at h
            by_cases hv : v = 0
            · rw [if_pos hv] at h
              simp only [Pure.pure] at h
              cases h
              exact ⟨_, by rw [hcls]⟩
            · rw [if_neg hv] at h
              simp only [Pure.pure] at h
              cases h
              exact ⟨_, by rw [hcls]⟩

theorem setAuto_keys {R : Type} [CommRing R] [DecidableEq R]
    {c c' : Components R} {ind : List ℤ} {v : R}
    (hkeys : PyDict.distinctKeys c.comp)
    (h : c.setAuto ind v = .ok c') : PyDict.distinctKeys c'.comp := by
  unfold Components.setAuto at h
  cases hcls : c.cls <;> rw [hcls] at h
  case plain =>
    unfold Components.setPlain at h
    cases hchk : c.checkIndices ind with
    | error e => rw [hchk] at h; exact absurd h (by simp [Bind.bind, Except.bind])
    | ok i =>
        rw [hchk] at h
        simp only [Bind.bind, Except.bind] at h
        by_cases hv : v = 0
        · rw [if_pos hv] at h
          simp only [Pure.pure] at h
          cases h
          exact PyDict.distinctKeys_erase _ _ hkeys
        · rw [if_neg hv] at h
          simp only [Pure.pure] at h
          cases h
          exact PyDict.distinctKeys_insert _ _ _ hkeys
  case fullySym =>
    unfold Components.setFullySym at h
    cases hOI : c.orderedIndices ind with
    | error e => rw [hOI] at h; exact absurd h (by simp [Bind.bind, Except.bind])
    | ok so =>
        rw [hOI] at h
        simp only [Bind.bind, Except.bind] at h
        cases hk : so.2 with
        | none =>
            rw [hk] at h
            simp only [Pure.pure] at h
            cases h
            exact hkeys
        | some k =>
            rw [hk] at h
            dsimp only at h
            by_cases hv : v = 0
            · rw [if_pos hv] at h
              simp only [Pure.pure] at h
              cases h
              exact PyDict.distinctKeys_erase _ _ hkeys
            · rw [if_neg hv] at h
              simp only [Pure.pure] at h
              cases h
              exact PyDict.distinctKeys_insert _ _ _ hkeys
  all_goals
    unfold Components.setSym at h
    cases hOI : c.orderedIndices ind with
    | error e => rw [hOI] at h; exact absurd h (by simp [Bind.bind, Except.bind])
    | ok so =>
        rw [hOI] at h
        simp only [Bind.bind, Except.bind] at h
        cases hk : so.2 with
        | none =>
            rw [hk] at h
            dsimp only at h
            by_cases hv : v ≠ 0
            · rw [if_pos hv] at h; cases h
            · rw [if_neg hv] at h
              simp only [Pure.pure] at h
              cases h
              exact hkeys
        | some k =>
            rw [hk] at h
            dsimp only at h
            by_cases hv : v = 0
            · rw [if_pos hv] at h
              simp only [Pure.pure] at h
              cases h
              exact PyDict.distinctKeys_erase _ _ hkeys
            · rw [if_neg hv] at h
              simp only [Pure.pure] at h
              cases h
              exact PyDict.distinctKeys_insert _ _ _ hkeys

theorem getAuto_setAuto_self {R : Type} [CommRing R] [DecidableEq R]
    {c c' : Components R} {ind : List ℤ} {v : R}
    (hcan : c.orderedIndices ind = .ok (1, some ind))
    (hkeys : PyDict.distinctKeys c.comp)
    (h : c.setAuto ind v = .ok c') :
    c'.getAuto ind = .ok v := by
  have hchk : c.checkIndices ind = .ok ind := (orderedIndices_eq_ok hcan).1
  obtain ⟨d, hd⟩ := setAuto_shape h
  have hclseq : c'.cls = c.cls := by rw [hd]
  have hext : c'.checkIndices ind = c.checkIndices ind := by
    rw [hd]; exact checkIndices_comp_irrel c d ind
  have hoi : c'.orderedIndices ind = c.orderedIndices ind := by
    rw [hd]; exact orderedIndices_comp_irrel c d ind
  unfold Components.setAuto at h
  unfold Components.getAuto
  rw [hclseq]
  cases hcls : c.cls <;> rw [hcls] at h
  case plain =>
    unfold Components.setPlain at h
    rw [hchk] at h
    simp only [Bind.bind, Except.bind] at h
    unfold Components.getPlain
    rw [hext, hchk]
    simp only [Bind.bind, Except.bind]
    by_cases hv : v = 0
    · rw [if_pos hv] at h
      simp only [Pure.pure] at h
      cases h
      rw [PyDict.lookup_erase_self _ _ hkeys, hv]
      rfl
    · rw [if_neg hv] at h
      simp only [Pure.pure] at h
      cases h
      rw [PyDict.lookup_insert_self]
      rfl
  case fullySym =>
    unfold Components.setFullySym at h
    rw [hcan] at h
    simp only [Bind.bind, Except.bind] at h
    unfold Components.getFullySym
    rw [hoi, hcan]
    simp only [Bind.bind, Except.bind]
    by_cases hv : v = 0
    · rw [if_pos hv] at h
      simp only [Pure.pure] at h
      cases h
      rw [PyDict.lookup_erase_self _ _ hkeys, hv]
      rfl
    · rw [if_neg hv] at h
      simp only [Pure.pure] at h
      cases h
      rw [PyDict.lookup_insert_self]
      rfl
  all_goals
    unfold Components.setSym at h
    rw [hcan] at h
    simp only [Bind.bind, Except.bind] at h
    unfold Components.getSym
    rw [hoi, hcan]
    simp only [Bind.bind, Except.bind]
    by_cases hv : v = 0
    · rw [if_pos hv] at h
      simp only [Pure.pure] at h
      cases h
      rw [PyDict.lookup_erase_self _ _ hkeys, hv]
      rfl
    · rw [if_neg hv] at h
      simp only [Pure.pure] at h
      cases h
      rw [PyDict.lookup_insert_self]
      rfl

theorem getAuto_setAuto_other {R : Type} [CommRing R] [DecidableEq R]
    {c c' : Components R} {i j : List ℤ} {v : R}
    (hcani : c.orderedIndices i = .ok (1, some i))
    (hcanj : c.orderedIndices j = .ok (1, some j))
    (hij : i ≠ j)
    (h : c.setAuto i v = .ok c') :
    c'.getAuto j = c.getAuto j := by
  have hchki : c.checkIndices i = .ok i := (orderedIndices_eq_ok hcani).1
  have hchkj : c.checkIndices j = .ok j := (orderedIndices_eq_ok hcanj).1
  obtain ⟨d, hd⟩ := setAuto_shape h
  have hclseq : c'.cls = c.cls := by rw [hd]
  have hextj : c'.checkIndices j = c.checkIndices j := by
    rw [hd]; exact checkIndices_comp_irrel c d j
  have hoij : c'.orderedIndices j = c.orderedIndices j := by
    rw [hd]; exact orderedIndices_comp_irrel c d j
  unfold Components.setAuto at h
  unfold Components.getAuto
  rw [hclseq]
  cases hcls : c.cls <;> rw [hcls] at h
  case plain =>
    unfold Components.setPlain at h
    rw [hchki] at h
    simp only [Bind.bind, Except.bind] at h
    unfold Components.getPlain
    rw [hextj, hchkj]
    simp only [Bind.bind, Except.bind]
    by_cases hv : v = 0
    · rw [if_pos hv] at h
      simp only [Pure.pure] at h
      cases h
      rw [PyDict.lookup_erase_ne _ _ _ hij]
    · rw [if_neg hv] at h
      simp only [Pure.pure] at h
      cases h
      rw [PyDict.lookup_insert_ne _ _ _ _ hij]
  case fullySym =>
    unfold Components.setFullySym at h
    rw [hcani] at h
    simp only [Bind.bind, Except.bind] at h
    unfold Components.getFullySym
    rw [hoij, hcanj]
    simp only [Bind.bind, Except.bind]
    by_cases hv : v = 0
    · rw [if_pos hv] at h
      simp only [Pure.pure] at h
      cases h
      rw [PyDict.lookup_erase_ne _ _ _ hij]
    · rw [if_neg hv] at h
      simp only [Pure.pure] at h
      cases h
      rw [PyDict.lookup_insert_ne _ _ _ _ hij]
  all_goals
    unfold Components.setSym at h
    rw [hcani] at h
    simp only [Bind.bind, Except.bind] at h
    unfold Components.getSym
    rw [hoij, hcanj]
    simp only [Bind.bind, Except.bind]
    by_cases hv : v = 0
    · rw [if_pos hv] at h
      simp only [Pure.pure] at h
      cases h
      rw [PyDict.lookup_erase_ne _ _ _ hij]
    · rw [if_neg hv] at h
      simp only [Pure.pure] at h
      cases h
      rw [PyDict.lookup_insert_ne _ _ _ _ hij]

/-- Membership-aware variant of the `Except` fold invariant. -/
theorem foldlM_except_inv_mem {α β : Type} (P : β → Prop)
    (f : β → α → Except CompError β) :
    ∀ (l : List α), (∀ acc x r, x ∈ l → P acc → f acc x = .ok r → P r) →
    ∀ (init res : β), P init → List.foldlM f init l = .ok res → P res := by
  intro l
  induction l with
  | nil =>
      intro _ init res hP h
      simp only [List.foldlM_nil, Pure.pure] at h
      cases h
      exact hP
  | cons x t ih =>
      intro hf init res hP h
      rw [List.foldlM_cons] at h
      cases hx : f init x with
      | error e =>
          rw [hx] at h
          exact absurd h (by simp [Bind.bind, Except.bind])
      | ok b =>
          rw [hx] at h
          exact ih (fun acc y r hy => hf acc y r (List.mem_cons_of_mem _ hy))
            b res (hf init x b (List.mem_cons_self _ _) hP hx)
            (by simpa [Bind.bind, Except.bind] using h)

/-- Behaviour of the value-filling fold of `CompWithSym.__add__` on a fresh
result store: on a duplicate-free list of self-canonical tuples, the final
store reads back the sum of the two operands' values at every tuple of the
list. -/
theorem addFold_get {R : Type} [CommRing R] [DecidableEq R]
    (a b : Components R) :
    ∀ (inds : List (List ℤ)) (r0 rN : Components R),
      (∀ ind ∈ inds, r0.orderedIndices ind = .ok (1, some ind)) →
      inds.Nodup →
      PyDict.distinctKeys r0.comp →
      List.foldlM (Components.addStep a b) r0 inds = .ok rN →
      ∀ ind ∈ inds, ∃ va vb, a.getAuto ind = .ok va ∧ b.getAuto ind = .ok vb ∧
        rN.getAuto ind = .ok (va + vb) := by
  intro inds
  induction inds with
  | nil => intro r0 rN _ _ _ _ ind hmem; simp at hmem
  | cons i0 rest ih =>
      intro r0 rN hcan hnd hkeys h
      rw [List.foldlM_cons] at h
      cases hstep0 : Components.addStep a b r0 i0 with
      | error e =>
          rw [hstep0] at h
          exact absurd h (by simp [Bind.bind, Except.bind])
      | ok r1 =>
      rw [hstep0] at h
      have hfold : List.foldlM (Components.addStep a b) r1 rest = .ok rN := by
        simpa [Bind.bind, Except.bind] using h
      obtain ⟨va, vb, hga, hgb, hset⟩ :
          ∃ va vb, a.getAuto i0 = .ok va ∧ b.getAuto i0 = .ok vb ∧
            r0.setAuto i0 (va + vb) = .ok r1 := by
        unfold Components.addStep at hstep0
        cases hga : a.getAuto i0 with
        | error e =>
            rw [hga] at hstep0
            exact absurd hstep0 (by simp [Bind.bind, Except.bind])
        | ok va =>
            rw [hga] at hstep0
            simp only [Bind.bind, Except.bind] at hstep0
            cases hgb : b.getAuto i0 with
            | error e =>
                rw [hgb] at hstep0
                exact absurd hstep0 (by simp)
            | ok vb =>
                rw [hgb] at hstep0
                simp only at hstep0
                exact ⟨va, vb, rfl, rfl, hstep0⟩
      obtain ⟨d1, hd1⟩ := setAuto_shape hset
      have hcan1 : ∀ ind ∈ rest, r1.orderedIndices ind = .ok (1, some ind) := by
        intro ind hmem
        rw [hd1, orderedIndices_comp_irrel]
        exact hcan ind (List.mem_cons_of_mem _ hmem)
      have hkeys1 : PyDict.distinctKeys r1.comp := setAuto_keys hkeys hset
      have hndrest : rest.Nodup := hnd.of_cons
      have hi0 : i0 ∉ rest := (List.nodup_cons.mp hnd).1
      intro ind hmem
      rcases List.mem_cons.mp hmem with hEq | hmemrest
      · subst hEq
        refine ⟨va, vb, hga, hgb, ?_⟩
        have hbase : r1.getAuto ind = .ok (va + vb) :=
          getAuto_setAuto_self (hcan ind (List.mem_cons_self _ _)) hkeys hset
        have hinv := foldlM_except_inv_mem
          (fun r => (∃ d, r = { r0 with comp := d } ∧ PyDict.distinctKeys d) ∧
            r.getAuto ind = .ok (va + vb))
          (Components.addStep a b) rest ?_ r1 rN ?_ hfold
        · exact hinv.2
        · intro acc x r hx hacc hstep
          obtain ⟨⟨dacc, hdacc, hdk⟩, hget⟩ := hacc
          obtain ⟨va', vb', hga', hgb', hset'⟩ :
              ∃ va' vb', a.getAuto x = .ok va' ∧ b.getAuto x = .ok vb' ∧
                acc.setAuto x (va' + vb') = .ok r := by
            unfold Components.addStep at hstep
            cases hga' : a.getAuto x with
            | error e =>
                rw [hga'] at hstep
                exact absurd hstep (by simp [Bind.bind, Except.bind])
            | ok va' =>
                rw [hga'] at hstep
                simp only [Bind.bind, Except.bind] at hstep
                cases hgb' : b.getAuto x with
                | error e =>
                    rw [hgb'] at hstep
                    exact absurd hstep (by simp)
                | ok vb' =>
                    rw [hgb'] at hstep
                    simp only at hstep
                    exact ⟨va', vb', rfl, rfl, hstep⟩
          obtain ⟨dr, hdr⟩ := setAuto_shape hset'
          constructor
          · refine ⟨dr, ?_, ?_⟩
            · rw [hdr, hdacc]
            · have hrc : r.comp = dr := by rw [hdr]
              rw [← hrc]
              exact setAuto_keys (by rw [hdacc]; exact hdk) hset'
          · have hcanx : acc.orderedIndices x = .ok (1, some x) := by
              rw [hdacc, orderedIndices_comp_irrel]
              exact hcan x (List.mem_cons_of_mem _ hx)
            have hcani0 : acc.orderedIndices ind = .ok (1, some ind) := by
              rw [hdacc, orderedIndices_comp_irrel]
              exact hcan ind (List.mem_cons_self _ _)
            have hne : x ≠ ind := fun hEq => hi0 (hEq ▸ hx)
            rw [getAuto_setAuto_other hcanx hcani0 hne hset']
            exact hget
        · refine ⟨⟨d1, hd1, ?_⟩, hbase⟩
          have hr1c : r1.comp = d1 := by rw [hd1]
          rw [← hr1c]
          exact hkeys1
      · exact ih r1 rN hcan1 hndrest hkeys1 hfold ind hmemrest

theorem nonRedundantE_ok_elim {R : Type} [CommRing R] [DecidableEq R]
    {c : Components R} {inds : List (List ℤ)}
    (h : c.nonRedundantE = .ok inds) :
    c.nid ≠ 0 ∧ inds = (indexTuples c.sindex c.dim c.nid).filter c.orderedTuple := by
  unfold Components.nonRedundantE at h
  by_cases hn : c.nid = 0
  · rw [if_pos hn] at h; cases h
  · rw [if_neg hn] at h
    cases h
    exact ⟨hn, rfl⟩

theorem mem_nonRedundant_canonical {R : Type} [CommRing R] [DecidableEq R]
    {c : Components R} {inds : List (List ℤ)} {ind : List ℤ}
    (h : c.nonRedundantE = .ok inds) (hm : ind ∈ inds) :
    c.orderedIndices ind = .ok (1, some ind) := by
  obtain ⟨hnid, hinds⟩ := nonRedundantE_ok_elim h
  subst hinds
  rcases List.mem_filter.mp hm with ⟨hmem, hord⟩
  exact canonicalSelf_of_ordered c ind (checkIndices_ok_of_mem c hmem) hord

theorem nonRedundant_nodup {R : Type} [CommRing R] [DecidableEq R]
    {c : Components R} {inds : List (List ℤ)}
    (h : c.nonRedundantE = .ok inds) : inds.Nodup := by
  obtain ⟨hnid, hinds⟩ := nonRedundantE_ok_elim h
  subst hinds
  exact (indexTuples_nodup c.sindex c.dim c.nid).filter _

theorem addStep_shape {R : Type} [CommRing R] [DecidableEq R]
    {a b acc r : Components R} {x : List ℤ}
    (h : Components.addStep a b acc x = .ok r) :
    ∃ d, r = { acc with comp := d } := by
  unfold Components.addStep at h
  cases hga : a.getAuto x with
  | error e =>
      rw [hga] at h
      exact absurd h (by simp [Bind.bind, Except.bind])
  | ok va =>
      rw [hga] at h
      simp only [Bind.bind, Except.bind] at h
      cases hgb : b.getAuto x with
      | error e =>
          rw [hgb] at h
          exact absurd h (by simp)
      | ok vb =>
          rw [hgb] at h
          simp only at h
          exact setAuto_shape h

theorem mem_commonGroups {xs ys : List (List ℕ)} {gr : List ℕ} :
    gr ∈ Components.commonGroups xs ys ↔
      1 < gr.length ∧ ∃ isym ∈ xs, ∃ osym ∈ ys, gr = isym.filter (· ∈ osym) := by
  unfold Components.commonGroups
  rw [List.mem_filter]
  constructor
  · rintro ⟨hmem, hlen⟩
    rcases List.mem_flatMap.mp hmem with ⟨isym, hisym, hmap⟩
    rcases List.mem_map.mp hmap with ⟨osym, hosym, hEq⟩
    exact ⟨by simpa using hlen, isym, hisym, osym, hosym, hEq.symm⟩
  · rintro ⟨hlen, isym, hisym, osym, hosym, hEq⟩
    refine ⟨List.mem_flatMap.mpr ⟨isym, hisym,
      List.mem_map.mpr ⟨osym, hosym, hEq.symm⟩⟩, by simpa using hlen⟩


theorem nonRedundantE_comp_irrel {R : Type} [CommRing R] [DecidableEq R]
    (c : Components R) (x : List (List ℤ × R)) :
    Components.nonRedundantE { c with comp := x } = c.nonRedundantE :=
  rfl

/-- Core of C5: `CompWithSym.__add__` on operands with different symmetry
data (right operand not zero, not plain) produces a store whose groups are
exactly the pairwise same-kind intersections of size ≥ 2 — a plain store if
there are none — and whose value at every canonical index of the result spec
is the sum of the operands' values there. -/
theorem addSym_diff_core {R : Type} [CommRing R] [DecidableEq R]
    (a b r : Components R)
    (hbz : b.isZero = false)
    (hbcls : b.cls ≠ .plain)
    (hdiff : ((a.sym.all (· ∈ b.sym) && b.sym.all (· ∈ a.sym)) &&
      (a.antisym.all (· ∈ b.antisym) && b.antisym.all (· ∈ a.antisym))) = false)
    (h : Components.addSym a b = .ok r) :
    (∀ gr : List ℕ, gr ∈ r.sym ↔
      (1 < gr.length ∧ ∃ isym ∈ a.sym, ∃ osym ∈ b.sym,
        gr = isym.filter (· ∈ osym))) ∧
    (∀ gr : List ℕ, gr ∈ r.antisym ↔
      (1 < gr.length ∧ ∃ isym ∈ a.antisym, ∃ osym ∈ b.antisym,
        gr = isym.filter (· ∈ osym))) ∧
    (Components.commonGroups a.sym b.sym = [] ∧
      Components.commonGroups a.antisym b.antisym = [] →
      r.cls = .plain ∧ r.sym = [] ∧ r.antisym = []) ∧
    (∀ inds, r.nonRedundantE = .ok inds → ∀ ind ∈ inds,
      ∃ va vb, a.getAuto ind = .ok va ∧ b.getAuto ind = .ok vb ∧
        r.getAuto ind = .ok (va + vb)) := by
  unfold Components.addSym at h
  rw [if_neg (by simp [hbz])] at h
  by_cases hfr : b.frame ≠ a.frame
  · rw [if_pos hfr] at h; cases h
  · rw [if_neg hfr] at h
    by_cases hni : b.nid ≠ a.nid
    · rw [if_pos hni] at h; cases h
    · rw [if_neg hni] at h
      by_cases hsi : b.sindex ≠ a.sindex
      · rw [if_pos hsi] at h; cases h
      · rw [if_neg hsi] at h
        rw [if_pos hbcls] at h
        rw [if_neg (by simp [hdiff])] at h
        simp only [] at h
        by_cases hcom : Components.commonGroups a.sym b.sym ≠ [] ∨
            Components.commonGroups a.antisym b.antisym ≠ []
        · rw [if_pos hcom] at h
          set r0 : Components R :=
            { cls := .withSym, frame := a.frame, dim := a.dim, nid := a.nid,
              sindex := a.sindex, sym := Components.commonGroups a.sym b.sym,
              antisym := Components.commonGroups a.antisym b.antisym,
              comp := [] } with hr0
          cases hnr : r0.nonRedundantE with
          | error e =>
              rw [hnr] at h
              exact absurd h (by simp [Bind.bind, Except.bind])
          | ok inds =>
          rw [hnr] at h
          have hfold : List.foldlM (Components.addStep a b) r0 inds = .ok r := by
            simpa [Bind.bind, Except.bind] using h
          have hshape : ∃ d, r = { r0 with comp := d } := by
            refine foldlM_except_inv (fun s => ∃ d, s = { r0 with comp := d })
              (Components.addStep a b) ?_ inds r0 r ⟨[], rfl⟩ hfold
            intro acc x s hacc hstep
            obtain ⟨dacc, hdacc⟩ := hacc
            obtain ⟨ds, hds⟩ := addStep_shape hstep
            exact ⟨ds, by rw [hds, hdacc]⟩
          obtain ⟨d, hd⟩ := hshape
          have hsymr : r.sym = Components.commonGroups a.sym b.sym := by rw [hd]
          have hantir : r.antisym = Components.commonGroups a.antisym b.antisym := by
            rw [hd]
          have hcanon : ∀ ind ∈ inds, r0.orderedIndices ind = .ok (1, some ind) :=
            fun ind hm => mem_nonRedundant_canonical hnr hm
          have hget := addFold_get a b inds r0 r hcanon (nonRedundant_nodup hnr)
            (by simp [PyDict.distinctKeys]) hfold
          refine ⟨?_, ?_, ?_, ?_⟩
          · intro gr
            rw [hsymr]
            exact mem_commonGroups
          · intro gr
            rw [hantir]
            exact mem_commonGroups
          · intro ⟨hc1, hc2⟩
            exact absurd hcom (by simp [hc1, hc2])
          · intro inds' hnr' ind hm
            rw [hd, nonRedundantE_comp_irrel] at hnr'
            rw [hnr] at hnr'
            injection hnr' with hEq
            exact hget ind (hEq ▸ hm)
        · rw [if_neg hcom] at h
          push_neg at hcom
          set r0 : Components R :=
            { cls := .plain, frame := a.frame, dim := a.dim, nid := a.nid,
              sindex := a.sindex, sym := [], antisym := [], comp := [] } with hr0
          cases hnr : r0.nonRedundantE with
          | error e =>
              rw [hnr] at h
              exact absurd h (by simp [Bind.bind, Except.bind])
          | ok inds =>
          rw [hnr] at h
          have hfold : List.foldlM (Components.addStep a b) r0 inds = .ok r := by
            simpa [Bind.bind, Except.bind] using h
          have hshape : ∃ d, r = { r0 with comp := d } := by
            refine foldlM_except_inv (fun s => ∃ d, s = { r0 with comp := d })
              (Components.addStep a b) ?_ inds r0 r ⟨[], rfl⟩ hfold
            intro acc x s hacc hstep
            obtain ⟨dacc, hdacc⟩ := hacc
            obtain ⟨ds, hds⟩ := addStep_shape hstep
            exact ⟨ds, by rw [hds, hdacc]⟩
          obtain ⟨d, hd⟩ := hshape
          have hsymr : r.sym = ([] : List (List ℕ)) := by rw [hd]
          have hantir : r.antisym = ([] : List (List ℕ)) := by rw [hd]
          have hclsr : r.cls = .plain := by rw [hd]
          have hcanon : ∀ ind ∈ inds, r0.orderedIndices ind = .ok (1, some ind) :=
            fun ind hm => mem_nonRedundant_canonical hnr hm
          have hget := addFold_get a b inds r0 r hcanon (nonRedundant_nodup hnr)
            (by simp [PyDict.distinctKeys]) hfold
          refine ⟨?_, ?_, fun _ => ⟨hclsr, hsymr, hantir⟩, ?_⟩
          · intro gr
            rw [hsymr]
            simp only [List.not_mem_nil, false_iff]
            intro ⟨hlen, isym, hisym, osym, hosym, hEq⟩
            have : gr ∈ Components.commonGroups a.sym b.sym :=
              mem_commonGroups.mpr ⟨hlen, isym, hisym, osym, hosym, hEq⟩
            rw [hcom.1] at this
            simp at this
          · intro gr
            rw [hantir]
            simp only [List.not_mem_nil, false_iff]
            intro ⟨hlen, isym, hisym, osym, hosym, hEq⟩
            have : gr ∈ Components.commonGroups a.antisym b.antisym :=
              mem_commonGroups.mpr ⟨hlen, isym, hisym, osym, hosym, hEq⟩
            rw [hcom.2] at this
            simp at this
          · intro inds' hnr' ind hm
            rw [hd, nonRedundantE_comp_irrel] at hnr'
            rw [hnr] at hnr'
            injection hnr' with hEq
            exact hget ind (hEq ▸ hm)

/-- C5 (counterexample): the claim as stated fails when the right operand is
a zero store.  `aSymZ` (symmetric on `(0, 1)`) and `bAntiZ` (antisymmetric on
`(0, 1)`, all values zero) have identical frame, `nid` and start index and
different symmetry specs with no same-kind group intersection, so the claim
demands a plain-spec sum; but `CompWithSym.__add__` begins with
`if other == 0: return +self`, so the sum is a copy of `aSymZ`, a
`CompWithSym` store that keeps the symmetric group `[0, 1]`. -/
theorem claim_add_diff_spec_counterexample :
    Components.addSym aSymZ bAntiZ = .ok aSymZ ∧
    aSymZ.frame = bAntiZ.frame ∧ aSymZ.nid = bAntiZ.nid ∧
    aSymZ.sindex = bAntiZ.sindex ∧
    (aSymZ.sym ≠ bAntiZ.sym ∨ aSymZ.antisym ≠ bAntiZ.antisym) ∧
    Components.commonGroups aSymZ.sym bAntiZ.sym = [] ∧
    Components.commonGroups aSymZ.antisym bAntiZ.antisym = [] ∧
    aSymZ.cls ≠ .plain ∧ aSymZ.sym = [[0, 1]] :=
  ⟨rfl, rfl, rfl, rfl, by decide, rfl, rfl, by decide, rfl⟩

/-- C5 (amended): addition of symmetry-aware stores with identical frame,
`nid` and start index but *different* symmetry specs — provided the right
operand is not the zero store, which short-circuits to a copy of `self` —
yields a store whose symmetric (resp. antisymmetric) groups are exactly the
pairwise same-kind intersections of size ≥ 2 of a `self` group with an
`other` group (a plain store when there is no such intersection at all), and
whose value at every canonical index of the result spec is the sum of the two
operands' values there. -/
theorem claim_add_diff_spec_amended {R : Type} [CommRing R] [DecidableEq R]
    (a b r : Components R)
    (hacls : a.cls ≠ .plain) (hbcls : b.cls ≠ .plain)
    (hca : a.classCoherent) (hcb : b.classCoherent)
    (hbz : b.isZero = false)
    (hdiff : ((a.sym.all (· ∈ b.sym) && b.sym.all (· ∈ a.sym)) &&
      (a.antisym.all (· ∈ b.antisym) && b.antisym.all (· ∈ a.antisym))) = false)
    (h : Components.addAuto a b = .ok r) :
    (∀ gr : List ℕ, gr ∈ r.sym ↔
      (1 < gr.length ∧ ∃ isym ∈ a.sym, ∃ osym ∈ b.sym,
        gr = isym.filter (· ∈ osym))) ∧
    (∀ gr : List ℕ, gr ∈ r.antisym ↔
      (1 < gr.length ∧ ∃ isym ∈ a.antisym, ∃ osym ∈ b.antisym,
        gr = isym.filter (· ∈ osym))) ∧
    (Components.commonGroups a.sym b.sym = [] ∧
      Components.commonGroups a.antisym b.antisym = [] →
      r.cls = .plain ∧ r.sym = [] ∧ r.antisym = []) ∧
    (∀ inds, r.nonRedundantE = .ok inds → ∀ ind ∈ inds,
      ∃ va vb, a.getAuto ind = .ok va ∧ b.getAuto ind = .ok vb ∧
        r.getAuto ind = .ok (va + vb)) := by
  unfold Components.addAuto at h
  cases hclsa : a.cls with
  | plain => exact absurd hclsa hacls
  | withSym =>
      rw [hclsa] at h
      exact addSym_diff_core a b r hbz hbcls hdiff h
  | fullySym =>
      rw [hclsa] at h
      have h' : Components.addFullySym a b = .ok r := h
      unfold Components.addFullySym at h'
      rw [if_neg (by simp [hbz])] at h'
      by_cases hbf : b.cls = .fullySym
      · rw [if_pos hbf] at h'
        by_cases hfr : b.frame ≠ a.frame
        · rw [if_pos hfr] at h'; cases h'
        · rw [if_neg hfr] at h'
          by_cases hni : b.nid ≠ a.nid
          · rw [if_pos hni] at h'; cases h'
          · rw [if_neg hni] at h'
            push_neg at hni
            obtain ⟨hsa, haa⟩ := hca.2.1 hclsa
            obtain ⟨hsb, hab⟩ := hcb.2.1 hbf
            have htrue : ((a.sym.all (· ∈ b.sym) && b.sym.all (· ∈ a.sym)) &&
                (a.antisym.all (· ∈ b.antisym) &&
                  b.antisym.all (· ∈ a.antisym))) = true := by
              rw [hsa, haa, hsb, hab, hni]
              simp
            rw [htrue] at hdiff
            cases hdiff
      · rw [if_neg hbf] at h'
        exact addSym_diff_core a b r hbz hbcls hdiff h'
  | fullyAntiSym =>
      rw [hclsa] at h
      have h' : Components.addFullyAntiSym a b = .ok r := h
      unfold Components.addFullyAntiSym at h'
      rw [if_neg (by simp [hbz])] at h'
      by_cases hbf : b.cls = .fullyAntiSym
      · rw [if_pos hbf] at h'
        by_cases hfr : b.frame ≠ a.frame
        · rw [if_pos hfr] at h'; cases h'
        · rw [if_neg hfr] at h'
          by_cases hni : b.nid ≠ a.nid
          · rw [if_pos hni] at h'; cases h'
          · rw [if_neg hni] at h'
            push_neg at hni
            obtain ⟨hsa, haa⟩ := hca.2.2 hclsa
            obtain ⟨hsb, hab⟩ := hcb.2.2 hbf
            have htrue : ((a.sym.all (· ∈ b.sym) && b.sym.all (· ∈ a.sym)) &&
                (a.antisym.all (· ∈ b.antisym) &&
                  b.antisym.all (· ∈ a.antisym))) = true := by
              rw [hsa, haa, hsb, hab, hni]
              simp
            rw [htrue] at hdiff
            cases hdiff
      · rw [if_neg hbf] at h'
        exact addSym_diff_core a b r hbz hbcls hdiff h'

theorem claim_add_diff_spec_amended_witness :
    aSymZ.cls ≠ .plain ∧ bAntiZset.cls ≠ .plain ∧
    aSymZ.classCoherent ∧ bAntiZset.classCoherent ∧
    bAntiZset.isZero = false ∧
    ((aSymZ.sym.all (· ∈ bAntiZset.sym) &&
        bAntiZset.sym.all (· ∈ aSymZ.sym)) &&
      (aSymZ.antisym.all (· ∈ bAntiZset.antisym) &&
        bAntiZset.antisym.all (· ∈ aSymZ.antisym))) = false ∧
    Components.addAuto aSymZ bAntiZset = .ok addDiffW ∧
    ((∀ gr : List ℕ, gr ∈ addDiffW.sym ↔
      (1 < gr.length ∧ ∃ isym ∈ aSymZ.sym, ∃ osym ∈ bAntiZset.sym,
        gr = isym.filter (· ∈ osym))) ∧
    (∀ gr : List ℕ, gr ∈ addDiffW.antisym ↔
      (1 < gr.length ∧ ∃ isym ∈ aSymZ.antisym, ∃ osym ∈ bAntiZset.antisym,
        gr = isym.filter (· ∈ osym))) ∧
    (Components.commonGroups aSymZ.sym bAntiZset.sym = [] ∧
      Components.commonGroups aSymZ.antisym bAntiZset.antisym = [] →
      addDiffW.cls = .plain ∧ addDiffW.sym = [] ∧ addDiffW.antisym = []) ∧
    (∀ inds, addDiffW.nonRedundantE = .ok inds → ∀ ind ∈ inds,
      ∃ va vb, aSymZ.getAuto ind = .ok va ∧ bAntiZset.getAuto ind = .ok vb ∧
        addDiffW.getAuto ind = .ok (va + vb))) :=
  ⟨by decide, by decide, by decide, by decide, by decide, by decide, rfl,
    claim_add_diff_spec_amended aSymZ bAntiZset addDiffW (by decide)
      (by decide) (by decide) (by decide) (by decide) (by decide) rfl⟩

theorem indexTuples_length (si : ℤ) (d : ℕ) :
    ∀ n, (indexTuples si d n).length = d ^ n := by
  intro n
  induction n with
  | zero => rfl
  | succ m ih =>
      rw [indexTuples, List.length_flatMap, List.map_map]
      have hfn : ((List.length ∘ fun i => List.map (fun t => i :: t)
          (indexTuples si d m)) ∘ fun (k : ℕ) => si + (k : ℤ)) =
          fun _ => d ^ m := by
        funext k
        simp [Function.comp, ih]
      rw [hfn, List.map_const', List.sum_replicate, List.length_range,
        smul_eq_mul]
      ring

theorem indexTuples_pairwise_lex (si : ℤ) (d : ℕ) :
    ∀ n, (indexTuples si d n).Pairwise (fun s t => List.Lex (· < ·) s t) := by
  intro n
  induction n with
  | zero => simp [indexTuples]
  | succ m ih =>
      rw [indexTuples, List.flatMap_def, List.pairwise_flatten]
      constructor
      · intro l hl
        rcases List.mem_map.mp hl with ⟨i, _, rfl⟩
        exact ih.map _ (fun a b hab => List.Lex.cons hab)
      · have hheads : ((List.range d).map (fun (k : ℕ) => si + (k : ℤ))).Pairwise
            (· < ·) := by
          refine List.Pairwise.map _ ?_ (List.pairwise_lt_range d)
          intro a b hab
          omega
        refine (hheads.map _ ?_)
        intro i j hij
        intro x hx y hy
        rcases List.mem_map.mp hx with ⟨s, _, rfl⟩
        rcases List.mem_map.mp hy with ⟨t, _, rfl⟩
        exact List.Lex.rel hij

theorem filter_flatMap {α β : Type} (l : List α) (f : α → List β) (p : β → Bool) :
    (l.flatMap f).filter p = l.flatMap (fun a => (f a).filter p) := by
  induction l with
  | nil => rfl
  | cons a l ih => simp only [List.flatMap_cons, List.filter_append, ih]

theorem flatMap_sparse {α β : Type} (g : α → Bool) (f : α → List β) :
    ∀ (l : List α), (∀ i ∈ l, g i = false → f i = []) →
      l.flatMap f = (l.filter g).flatMap f := by
  intro l h
  induction l with
  | nil => rfl
  | cons a l ih =>
      by_cases hg : g a = true
      · rw [List.flatMap_cons, List.filter_cons_of_pos hg, List.flatMap_cons,
          ih (fun i hi => h i (List.mem_cons_of_mem _ hi))]
      · rw [List.flatMap_cons,
          h a (List.mem_cons_self _ _) (Bool.not_eq_true _ ▸ hg),
          List.filter_cons_of_neg (Bool.not_eq_true _ ▸ hg),
          ih (fun i hi => h i (List.mem_cons_of_mem _ hi))]
        rfl

theorem flatMap_congr_mem {α β : Type} {l : List α} {f f' : α → List β}
    (h : ∀ a ∈ l, f a = f' a) : l.flatMap f = l.flatMap f' := by
  induction l with
  | nil => rfl
  | cons a l ih =>
      rw [List.flatMap_cons, List.flatMap_cons, h a (List.mem_cons_self _ _),
        ih (fun a ha => h a (List.mem_cons_of_mem _ ha))]

theorem heads_filter (si : ℤ) (d k : ℕ) (hk : k ≤ d) :
    (((List.range d).map (fun (j : ℕ) => si + (j : ℤ))).filter
        (fun i => decide (si + (k : ℤ) ≤ i))) =
      (List.range (d - k)).map (fun (j : ℕ) => si + (k : ℤ) + (j : ℤ)) := by
  obtain ⟨e, rfl⟩ : ∃ e, d = k + e := ⟨d - k, by omega⟩
  simp only [Nat.add_sub_cancel_left]
  rw [List.filter_map, List.range_add, List.filter_append]
  have h1 : (List.range k).filter
      ((fun i => decide (si + (k : ℤ) ≤ i)) ∘ (fun (j : ℕ) => si + (j : ℤ))) = [] := by
    rw [List.filter_eq_nil_iff]
    intro j hj
    have : j < k := List.mem_range.mp hj
    simp only [Function.comp]
    simp only [decide_eq_true_eq]
    push_neg
    omega
  have h2 : ((List.range e).map (fun x => k + x)).filter
      ((fun i => decide (si + (k : ℤ) ≤ i)) ∘ (fun (j : ℕ) => si + (j : ℤ))) =
      (List.range e).map (fun x => k + x) := by
    rw [List.filter_eq_self]
    intro j hj
    rcases List.mem_map.mp hj with ⟨x, _, rfl⟩
    simp only [Function.comp, decide_eq_true_eq]
    push_cast
    omega
  rw [h1, h2, List.nil_append, List.map_map]
  congr 1
  funext x
  simp only [Function.comp]
  push_cast
  ring

theorem indexTuples_restrict (si : ℤ) (d k : ℕ) (hk : k ≤ d) :
    ∀ n, (indexTuples si d n).filter
        (fun t => t.all (fun x => decide (si + (k : ℤ) ≤ x))) =
      indexTuples (si + (k : ℤ)) (d - k) n := by
  intro n
  induction n with
  | zero =>
      simp [indexTuples]
  | succ m ih =>
      rw [indexTuples, filter_flatMap]
      have hblock : ∀ i : ℤ,
          ((indexTuples si d m).map (fun t => i :: t)).filter
            (fun t => t.all (fun x => decide (si + (k : ℤ) ≤ x))) =
          if decide (si + (k : ℤ) ≤ i) = true then
            ((indexTuples si d m).filter
              (fun t => t.all (fun x => decide (si + (k : ℤ) ≤ x)))).map
                (fun t => i :: t)
          else [] := by
        intro i
        rw [List.filter_map]
        by_cases hi : decide (si + (k : ℤ) ≤ i) = true
        · rw [if_pos hi]
          congr 1
          apply List.filter_congr
          intro t _
          simp only [Function.comp, List.all_cons, hi, Bool.true_and]
        · rw [if_neg hi]
          have : ((indexTuples si d m).filter
              ((fun t => t.all (fun x => decide (si + (k : ℤ) ≤ x))) ∘
                (fun t => i :: t))) = [] := by
            rw [List.filter_eq_nil_iff]
            intro t _
            simp only [Function.comp, List.all_cons,
              Bool.not_eq_true] at hi ⊢
            rw [hi]
            rfl
          rw [this]
          rfl
      rw [flatMap_congr_mem (fun i _ => hblock i)]
      rw [flatMap_sparse (fun i => decide (si + (k : ℤ) ≤ i)) _ _
        (by
          intro i _ hgi
          simp only [] at hgi
          rw [if_neg (by simp [hgi])])]
      rw [heads_filter si d k hk]
      rw [indexTuples]
      apply flatMap_congr_mem
      intro i hi
      rcases List.mem_map.mp hi with ⟨j, _, rfl⟩
      rw [if_pos (by simp only [decide_eq_true_eq]; omega)]
      rw [ih]

theorem chainLe_cons_eq (a : ℤ) (t : List ℤ) :
    decide (List.Chain' (· ≤ ·) (a :: t)) =
      (decide (List.Chain' (· ≤ ·) t) && t.all (fun x => decide (a ≤ x))) := by
  rw [Bool.eq_iff_iff]
  simp only [decide_eq_true_eq, Bool.and_eq_true, List.all_eq_true,
    decide_eq_true_eq]
  rw [List.chain'_cons']
  constructor
  · rintro ⟨hhead, hchain⟩
    refine ⟨hchain, ?_⟩
    intro x hx
    have hpw : t.Pairwise (· ≤ ·) := List.chain'_iff_pairwise.mp hchain
    rcases t with _ | ⟨b, rest⟩
    · cases hx
    · have hab : a ≤ b := hhead b rfl
      rcases List.mem_cons.mp hx with rfl | hxr
      · exact hab
      · exact le_trans hab ((List.pairwise_cons.mp hpw).1 x hxr)
  · rintro ⟨hchain, hall⟩
    refine ⟨?_, hchain⟩
    intro y hy
    rcases t with _ | ⟨b, rest⟩
    · simp at hy
    · have hyb : b = y := by simpa using hy
      subst hyb
      exact hall b (List.mem_cons_self _ _)

theorem chainLt_cons_eq (a : ℤ) (t : List ℤ) :
    decide (List.Chain' (· < ·) (a :: t)) =
      (decide (List.Chain' (· < ·) t) && t.all (fun x => decide (a < x))) := by
  rw [Bool.eq_iff_iff]
  simp only [decide_eq_true_eq, Bool.and_eq_true, List.all_eq_true,
    decide_eq_true_eq]
  rw [List.chain'_cons']
  constructor
  · rintro ⟨hhead, hchain⟩
    refine ⟨hchain, ?_⟩
    intro x hx
    have hpw : t.Pairwise (· < ·) := List.chain'_iff_pairwise.mp hchain
    rcases t with _ | ⟨b, rest⟩
    · cases hx
    · have hab : a < b := hhead b rfl
      rcases List.mem_cons.mp hx with rfl | hxr
      · exact hab
      · exact lt_trans hab ((List.pairwise_cons.mp hpw).1 x hxr)
  · rintro ⟨hchain, hall⟩
    refine ⟨?_, hchain⟩
    intro y hy
    rcases t with _ | ⟨b, rest⟩
    · simp at hy
    · have hyb : b = y := by simpa using hy
      subst hyb
      exact hall b (List.mem_cons_self _ _)

theorem sum_multichoose (n : ℕ) : ∀ (d : ℕ),
    ((List.range d).map (fun k => Nat.multichoose (d - k) n)).sum =
      Nat.multichoose d (n + 1) := by
  intro d
  induction d with
  | zero => simp [Nat.multichoose_zero_succ]
  | succ e ihd =>
      rw [List.range_succ_eq_map, List.map_cons, List.sum_cons, List.map_map]
      have hfn : ((fun k => Nat.multichoose (e + 1 - k) n) ∘ Nat.succ) =
          fun k => Nat.multichoose (e - k) n := by
        funext k
        simp only [Function.comp]
        congr 1
        omega
      rw [hfn, ihd, Nat.multichoose_succ_succ, Nat.sub_zero]
      omega

theorem sum_choose (n : ℕ) : ∀ (d : ℕ),
    ((List.range d).map (fun k => (d - 1 - k).choose n)).sum =
      d.choose (n + 1) := by
  intro d
  induction d with
  | zero => simp
  | succ e ihd =>
      rw [List.range_succ_eq_map, List.map_cons, List.sum_cons, List.map_map]
      have hfn : ((fun k => (e + 1 - 1 - k).choose n) ∘ Nat.succ) =
          fun k => (e - 1 - k).choose n := by
        funext k
        simp only [Function.comp]
        congr 1
        omega
      rw [hfn, ihd, Nat.choose_succ_succ', Nat.sub_zero,
        Nat.add_sub_cancel]

theorem countW : ∀ (n : ℕ) (si : ℤ) (d : ℕ),
    ((indexTuples si d n).filter
      (fun t => decide (List.Chain' (· ≤ ·) t))).length =
        Nat.multichoose d n := by
  intro n
  induction n with
  | zero =>
      intro si d
      simp [indexTuples, Nat.multichoose_zero_right]
  | succ m ih =>
      intro si d
      rw [indexTuples, filter_flatMap, List.length_flatMap, List.map_map]
      have hcongr : ∀ k ∈ List.range d,
          (((List.length ∘ fun t =>
              ((indexTuples si d m).map (fun t' => t :: t')).filter
                (fun t' => decide (List.Chain' (· ≤ ·) t'))) ∘
            (fun (k : ℕ) => si + (k : ℤ))) k) =
          Nat.multichoose (d - k) m := by
        intro k hk
        have hkd : k < d := List.mem_range.mp hk
        simp only [Function.comp]
        rw [List.filter_map, List.length_map]
        have hpred : ((fun t => decide (List.Chain' (· ≤ ·) t)) ∘
            (fun t => (si + (k : ℤ)) :: t)) = fun t =>
              decide (List.Chain' (· ≤ ·) t) &&
                t.all (fun x => decide (si + (k : ℤ) ≤ x)) := by
          funext t
          simp only [Function.comp]
          exact chainLe_cons_eq _ t
        rw [hpred, ← List.filter_filter,
          indexTuples_restrict si d k (le_of_lt hkd) m]
        exact ih (si + (k : ℤ)) (d - k)
      rw [List.map_congr_left hcongr]
      exact sum_multichoose m d

theorem countA : ∀ (n : ℕ) (si : ℤ) (d : ℕ),
    ((indexTuples si d n).filter
      (fun t => decide (List.Chain' (· < ·) t))).length = d.choose n := by
  intro n
  induction n with
  | zero =>
      intro si d
      simp [indexTuples]
  | succ m ih =>
      intro si d
      rw [indexTuples, filter_flatMap, List.length_flatMap, List.map_map]
      have hcongr : ∀ k ∈ List.range d,
          (((List.length ∘ fun t =>
              ((indexTuples si d m).map (fun t' => t :: t')).filter
                (fun t' => decide (List.Chain' (· < ·) t'))) ∘
            (fun (k : ℕ) => si + (k : ℤ))) k) =
          (d - 1 - k).choose m := by
        intro k hk
        have hkd : k < d := List.mem_range.mp hk
        simp only [Function.comp]
        rw [List.filter_map, List.length_map]
        have hpred : ((fun t => decide (List.Chain' (· < ·) t)) ∘
            (fun t => (si + (k : ℤ)) :: t)) = fun t =>
              decide (List.Chain' (· < ·) t) &&
                t.all (fun x => decide (si + ((k + 1 : ℕ) : ℤ) ≤ x)) := by
          funext t
          simp only [Function.comp]
          rw [chainLt_cons_eq]
          congr 1
          congr 1
          funext x
          rw [decide_eq_decide]
          push_cast
          omega
        rw [hpred, ← List.filter_filter,
          indexTuples_restrict si d (k + 1) (by omega) m]
        rw [ih (si + ((k + 1 : ℕ) : ℤ)) (d - (k + 1))]
        congr 1
        omega
      rw [List.map_congr_left hcongr]
      exact sum_choose m d

theorem zipConsec (n : ℕ) :
    (List.range n).zip (List.range n).tail =
      (List.range (n - 1)).map (fun p => (p, p + 1)) := by
  apply List.ext_getElem
  · simp only [List.length_zip, List.length_tail, List.length_range,
      List.length_map]
    omega
  · intro i h1 h2
    simp only [List.getElem_zip, List.getElem_tail, List.getElem_range,
      List.getElem_map]

theorem consecAll_eq_chainLe (t : List ℤ) (n : ℕ) (ht : t.length = n) :
    (((List.range n).zip (List.range n).tail).all
      (fun pq => decide (t.getD pq.1 0 ≤ t.getD pq.2 0))) =
    decide (List.Chain' (· ≤ ·) t) := by
  rw [zipConsec, Bool.eq_iff_iff, decide_eq_true_eq, List.all_eq_true,
    List.chain'_iff_get]
  constructor
  · intro h i hi
    have hmem : ((i, i + 1) : ℕ × ℕ) ∈ (List.range (n - 1)).map
        (fun p => (p, p + 1)) :=
      List.mem_map.mpr ⟨i, List.mem_range.mpr (by omega), rfl⟩
    have hh := h _ hmem
    simp only [decide_eq_true_eq] at hh
    rw [List.get_eq_getElem, List.get_eq_getElem]
    rw [List.getD_eq_getElem _ _ (by omega),
      List.getD_eq_getElem _ _ (by omega)] at hh
    exact hh
  · intro h pq hpq
    rcases List.mem_map.mp hpq with ⟨p, hp, rfl⟩
    have hpn : p < n - 1 := List.mem_range.mp hp
    simp only [decide_eq_true_eq]
    have hh := h p (by omega)
    rw [List.get_eq_getElem, List.get_eq_getElem] at hh
    rw [List.getD_eq_getElem _ _ (by omega),
      List.getD_eq_getElem _ _ (by omega)]
    exact hh

theorem consecAll_eq_chainLt (t : List ℤ) (n : ℕ) (ht : t.length = n) :
    (((List.range n).zip (List.range n).tail).all
      (fun pq => decide (t.getD pq.1 0 < t.getD pq.2 0))) =
    decide (List.Chain' (· < ·) t) := by
  rw [zipConsec, Bool.eq_iff_iff, decide_eq_true_eq, List.all_eq_true,
    List.chain'_iff_get]
  constructor
  · intro h i hi
    have hmem : ((i, i + 1) : ℕ × ℕ) ∈ (List.range (n - 1)).map
        (fun p => (p, p + 1)) :=
      List.mem_map.mpr ⟨i, List.mem_range.mpr (by omega), rfl⟩
    have hh := h _ hmem
    simp only [decide_eq_true_eq] at hh
    rw [List.get_eq_getElem, List.get_eq_getElem]
    rw [List.getD_eq_getElem _ _ (by omega),
      List.getD_eq_getElem _ _ (by omega)] at hh
    exact hh
  · intro h pq hpq
    rcases List.mem_map.mp hpq with ⟨p, hp, rfl⟩
    have hpn : p < n - 1 := List.mem_range.mp hp
    simp only [decide_eq_true_eq]
    have hh := h p (by omega)
    rw [List.get_eq_getElem, List.get_eq_getElem] at hh
    rw [List.getD_eq_getElem _ _ (by omega),
      List.getD_eq_getElem _ _ (by omega)]
    exact hh

theorem orderedTuple_fullySymN (si : ℤ) (d n : ℕ) (t : List ℤ)
    (ht : t.length = n) :
    (fullySymN si d n).orderedTuple t = decide (List.Chain' (· ≤ ·) t) := by
  have h1 : (fullySymN si d n).sym = [List.range n] := rfl
  have h2 : (fullySymN si d n).antisym = ([] : List (List ℕ)) := rfl
  unfold Components.orderedTuple
  rw [h1, h2]
  simp only [List.all_cons, List.all_nil, Bool.and_true]
  exact consecAll_eq_chainLe t n ht

theorem orderedTuple_fullyAntiN (si : ℤ) (d n : ℕ) (t : List ℤ)
    (ht : t.length = n) :
    (fullyAntiN si d n).orderedTuple t = decide (List.Chain' (· < ·) t) := by
  have h1 : (fullyAntiN si d n).sym = ([] : List (List ℕ)) := rfl
  have h2 : (fullyAntiN si d n).antisym = [List.range n] := rfl
  unfold Components.orderedTuple
  rw [h1, h2]
  simp only [List.all_cons, List.all_nil, Bool.and_true, Bool.true_and]
  exact consecAll_eq_chainLt t n ht

/-- C9 (counterexample): the claim promises `dim ^ nid` generated tuples for
every `nid ≥ 0`, which would be one (empty) tuple for a 0-index store; but
`Components.index_generator` executes `ind_end[0] = imax + 1` on an empty
list when `nid = 0`, raising `IndexError` before yielding anything, and the
non-redundant generator shares the same odometer. -/
theorem claim_index_counts_counterexample :
    scalarStoreZ.nid = 0 ∧
    scalarStoreZ.indexGeneratorE = .error .indexError ∧
    scalarStoreZ.nonRedundantE = .error .indexError ∧
    scalarStoreZ.dim ^ scalarStoreZ.nid = 1 :=
  ⟨rfl, rfl, rfl, rfl⟩

/-- C9 (amended): for every `nid ≥ 1`, dimension and start index, the full
index generator yields exactly `dim ^ nid` tuples in strictly increasing
lexicographic (odometer) order; the non-redundant generator yields exactly
`C(dim + nid - 1, nid)` tuples on the fully symmetric store and exactly
`C(dim, nid)` tuples on the fully antisymmetric store (hence none when
`nid > dim`). -/
theorem claim_index_counts_amended (si : ℤ) (d n : ℕ) (hn : 1 ≤ n) :
    ((plainN si d n).indexGeneratorE = .ok (indexTuples si d n) ∧
      (indexTuples si d n).length = d ^ n ∧
      (indexTuples si d n).Pairwise (fun s t => List.Lex (· < ·) s t)) ∧
    (∃ l, (fullySymN si d n).nonRedundantE = .ok l ∧
      l.length = (d + n - 1).choose n) ∧
    (∃ l, (fullyAntiN si d n).nonRedundantE = .ok l ∧
      l.length = d.choose n ∧ (d < n → l.length = 0)) := by
  refine ⟨⟨?_, indexTuples_length si d n, indexTuples_pairwise_lex si d n⟩,
    ?_, ?_⟩
  · unfold Components.indexGeneratorE
    rw [if_neg (by show ¬(n = 0); omega)]
    rfl
  · refine ⟨(indexTuples si d n).filter (fullySymN si d n).orderedTuple,
      ?_, ?_⟩
    · unfold Components.nonRedundantE
      rw [if_neg (by show ¬(n = 0); omega)]
      rfl
    · have hc : (indexTuples si d n).filter (fullySymN si d n).orderedTuple =
          (indexTuples si d n).filter
            (fun t => decide (List.Chain' (· ≤ ·) t)) :=
        List.filter_congr (fun t htm =>
          orderedTuple_fullySymN si d n t (mem_indexTuples htm).1)
      rw [hc, countW n si d, Nat.multichoose_eq]
  · refine ⟨(indexTuples si d n).filter (fullyAntiN si d n).orderedTuple,
      ?_, ?_, ?_⟩
    · unfold Components.nonRedundantE
      rw [if_neg (by show ¬(n = 0); omega)]
      rfl
    · have hc : (indexTuples si d n).filter (fullyAntiN si d n).orderedTuple =
          (indexTuples si d n).filter
            (fun t => decide (List.Chain' (· < ·) t)) :=
        List.filter_congr (fun t htm =>
          orderedTuple_fullyAntiN si d n t (mem_indexTuples htm).1)
      rw [hc, countA n si d]
    · intro hdn
      have hc : (indexTuples si d n).filter (fullyAntiN si d n).orderedTuple =
          (indexTuples si d n).filter
            (fun t => decide (List.Chain' (· < ·) t)) :=
        List.filter_congr (fun t htm =>
          orderedTuple_fullyAntiN si d n t (mem_indexTuples htm).1)
      rw [hc, countA n si d]
      exact Nat.choose_eq_zero_of_lt hdn

theorem claim_index_counts_amended_witness :
    1 ≤ 2 ∧
    (((plainN 0 2 2).indexGeneratorE = .ok (indexTuples 0 2 2) ∧
      (indexTuples 0 2 2).length = 2 ^ 2 ∧
      (indexTuples 0 2 2).Pairwise (fun s t => List.Lex (· < ·) s t)) ∧
    (∃ l, (fullySymN 0 2 2).nonRedundantE = .ok l ∧
      l.length = (2 + 2 - 1).choose 2) ∧
    (∃ l, (fullyAntiN 0 2 2).nonRedundantE = .ok l ∧
      l.length = Nat.choose 2 2 ∧ (2 < 2 → l.length = 0))) :=
  ⟨by decide, claim_index_counts_amended 0 2 2 (by decide)⟩
